import Mathlib

/-!
# Verification of the ClawdTalk missions CLI client (`telnyx_api.py`)

Shallow embedding of the client's pure logic: JSON values, the local state
store (`.missions_state.json`) and its per-mission/memory operations, the
response-envelope unwrapping of the resource operations, the HTTP error
handler, the assistant-listing pagination totals, the `init_mission`
workflow, and a model of `json.dumps(·, indent=2)` / `json.loads` used by
`save_state` / `load_state`.

Python `dict` values are modelled as insertion-ordered association lists
with unique keys; assignment to an existing key updates it in place,
assignment to a fresh key appends.  Fallible Python code (operations that
would raise on ill-shaped data) is modelled with `Option`.
-/

namespace Clawd

/-- JSON values.  Numbers are modelled as integers: every number this
client itself writes into the state document is an integer, and the
claims under study do not involve floating point. -/
inductive Json where
  | null : Json
  | bool : Bool → Json
  | num : Int → Json
  | str : String → Json
  | arr : List Json → Json
  | obj : List (String × Json) → Json
deriving Repr

abbrev Obj := List (String × Json)

/-- `d[k]` lookup in an insertion-ordered Python dict. -/
def objGet : Obj → String → Option Json
  | [], _ => none
  | (k, v) :: rest, key => if k = key then some v else objGet rest key

/-- `d[k] = v` on a Python dict: update in place if the key exists,
append otherwise. -/
def objSet : Obj → String → Json → Obj
  | [], key, v => [(key, v)]
  | (k, w) :: rest, key, v =>
      if k = key then (k, v) :: rest else (k, w) :: objSet rest key v

/-- `del d[k]` on a Python dict. -/
def objDel : Obj → String → Obj
  | [], _ => []
  | (k, v) :: rest, key => if k = key then rest else (k, v) :: objDel rest key

/-- `k in d` on a Python dict. -/
def objContains (d : Obj) (key : String) : Bool :=
  (objGet d key).isSome

/-- `d.get(k, default)` on a Python dict. -/
def jgetO (d : Obj) (key : String) (default : Json) : Json :=
  (objGet d key).getD default

/-- View a JSON value as a Python dict; `none` models the `AttributeError`
/ `TypeError` Python raises when dict operations hit a non-dict. -/
def Json.asObj : Json → Option Obj
  | .obj fields => some fields
  | _ => none

/-- Python truthiness of a JSON value (`bool(x)`). -/
def truthy : Json → Bool
  | .null => false
  | .bool b => b
  | .num n => n != 0
  | .str s => s != ""
  | .arr xs => !xs.isEmpty
  | .obj fields => !fields.isEmpty

/-- Python `len(x)` for JSON values; `none` models the `TypeError` on
values with no length. -/
def pyLen : Json → Option Nat
  | .arr xs => some xs.length
  | .obj fields => some fields.length
  | .str s => some s.length
  | _ => none

/-! ## `slugify` (source lines 62-69)

```python
slug = name.lower()
slug = re.sub(r"[^a-z0-9]", "-", slug)
slug = re.sub(r"-+", "-", slug)
return slug.strip("-")
``` -/

/-- Membership in `[a-z0-9]` (code points 97-122 and 48-57). -/
def isLowerAlnum (c : Char) : Bool :=
  (97 ≤ c.toNat && c.toNat ≤ 122) || (48 ≤ c.toNat && c.toNat ≤ 57)

/-- `re.sub(r"[^a-z0-9]", "-", ·)` on one character. -/
def dashify (c : Char) : Char :=
  if isLowerAlnum c then c else '-'

/-- `re.sub(r"-+", "-", ·)`: collapse every run of dashes to a single
dash (keeping one dash per run). -/
def collapse : List Char → List Char
  | [] => []
  | [c] => [c]
  | a :: b :: rest =>
      if a = '-' ∧ b = '-' then collapse (b :: rest)
      else a :: collapse (b :: rest)

/-- `·.strip("-")`: drop leading and trailing dashes. -/
def stripDashes (l : List Char) : List Char :=
  ((l.dropWhile (· = '-')).reverse.dropWhile (· = '-')).reverse

/-- `slugify` from the source: lower-case, replace non-`[a-z0-9]` by `-`,
collapse dash runs, strip edge dashes. -/
def slugify (name : String) : String :=
  String.mk (stripDashes (collapse ((name.data.map Char.toLower).map dashify)))

/-- A character that `slugify`'s replacement step can output: in
`[a-z0-9]` or a dash. -/
def okChar (c : Char) : Bool := isLowerAlnum c || c = '-'

/-! ## Local state store (source lines 84-149)

The state document is the parsed content of `.missions_state.json`: a
dict keyed by mission slug.  The operations below embed the
read-modify-write bodies of the Python functions; the surrounding
`load_state()` / `save_state()` file round trip is modelled separately
(`load_state` / `save_state` below). -/

/-- `dict.update(other)`: assign each of `other`'s pairs in order. -/
def dictUpdate (d : Obj) (updates : Obj) : Obj :=
  updates.foldl (fun acc kv => objSet acc kv.1 kv.2) d

/-- `get_mission_state`: `state.get(slug, {})`. -/
def get_mission_state (state : Obj) (slug : String) : Json :=
  jgetO state slug (.obj [])

/-- `update_mission_state(slug, updates)` body: ensure the slug entry
exists, then shallow-merge `updates` into it.  `none` models the
`AttributeError` raised when the existing entry is not a dict. -/
def update_mission_state (state : Obj) (slug : String) (updates : Obj) :
    Option Obj := do
  let entry ← (jgetO state slug (.obj [])).asObj
  some (objSet state slug (.obj (dictUpdate entry updates)))

/-- `remove_mission_state(slug)` body.  The boolean records whether
`save_state` was called (the source only saves when the slug was
present). -/
def remove_mission_state (state : Obj) (slug : String) : Obj × Bool :=
  if objContains state slug then (objDel state slug, true) else (state, false)

/-- `save_memory(slug, key, value)` body; `now` is the
`datetime.now(timezone.utc)` RFC3339 timestamp. -/
def save_memory (state : Obj) (slug key : String) (value : Json)
    (now : String) : Option Obj := do
  let entry ← (jgetO state slug (.obj [])).asObj
  let memory ← (jgetO entry "memory" (.obj [])).asObj
  let entry := objSet entry "memory" (.obj (objSet memory key value))
  let entry := objSet entry "last_updated" (.str now)
  some (objSet state slug (.obj entry))

/-- `get_memory(slug, key)`.  `key = none` models Python `key=None`;
the source tests `if key:`, which is also false for the empty string. -/
def get_memory (state : Obj) (slug : String) (key : Option String) :
    Option Json := do
  let ms ← (get_mission_state state slug).asObj
  let memory := jgetO ms "memory" (.obj [])
  match key with
  | some k =>
      if k = "" then some memory
      else do
        let mo ← memory.asObj
        some (jgetO mo k .null)
  | none => some memory

/-- `append_memory(slug, key, item)` body: ensure slug / `memory`
exist, default an absent key to `[]`, wrap a non-list value in a
one-element list, append `item`, stamp `last_updated`. -/
def append_memory (state : Obj) (slug key : String) (item : Json)
    (now : String) : Option Obj := do
  let entry ← (jgetO state slug (.obj [])).asObj
  let memory ← (jgetO entry "memory" (.obj [])).asObj
  let cur := (objGet memory key).getD (.arr [])
  let lst := match cur with
    | .arr xs => xs
    | v => [v]
  let memory := objSet memory key (.arr (lst ++ [item]))
  let entry := objSet entry "memory" (.obj memory)
  let entry := objSet entry "last_updated" (.str now)
  some (objSet state slug (.obj entry))

/-- The list stored in a slug's memory under `key`, read off a state
document directly (used to state the `append_memory` claims). -/
def memValue (state : Obj) (slug key : String) : Option Json := do
  let entry ← objGet state slug
  let eo ← entry.asObj
  let memory ← objGet eo "memory"
  let mo ← memory.asObj
  objGet mo key

/-- `isinstance(·, list)`. -/
def Json.isArr : Json → Bool
  | .arr _ => true
  | _ => false

/-! ## Response-envelope unwrapping (resource operations)

Each resource operation unwraps the parsed response `result` with a
chain of `dict.get` calls; the chains differ per operation. -/

/-- `create_mission` / `get_mission` unwrap:
`result.get("mission", result.get("data", result))`. -/
def mission_unwrap (result : Obj) : Json :=
  jgetO result "mission" (jgetO result "data" (.obj result))

/-- `create_run` / `get_run` unwrap: `result.get("data", result)`. -/
def run_unwrap (result : Obj) : Json :=
  jgetO result "data" (.obj result)

/-- `create_assistant` / `get_assistant` unwrap:
`result.get("assistant", result)` — note: no `"data"` probe. -/
def assistant_unwrap (result : Obj) : Json :=
  jgetO result "assistant" (.obj result)

/-- Modelled from the spec: "each operation must probe in that priority
order: a resource-specific key first, then `"data"`, then the raw
response".  Probes the candidate keys in order and falls back to the
raw response object. -/
def probeKeys : List String → Obj → Json
  | [], result => .obj result
  | k :: ks, result =>
      match objGet result k with
      | some v => v
      | none => probeKeys ks result

/-! ## Assistant listing (source lines 377-406) -/

/-- The query string `f"pageSize={page_size}&page={page_number}"`. -/
def list_assistants_params (page_size page_number : Nat) : String :=
  "pageSize=" ++ toString page_size ++ "&page=" ++ toString page_number

/-- The default `page_number` of `list_assistants` (1-indexed). -/
def list_assistants_default_page : Nat := 1

/-- The `total` computed by `list_assistants`:
`meta.get("total_results") or meta.get("total") or len(assistants)`,
with Python's truthiness-based, lazily evaluated `or`. -/
def list_assistants_total (result : Obj) : Option Json := do
  let assistants := jgetO result "assistants" (jgetO result "data" (.arr []))
  let meta ← (jgetO result "meta" (.obj [])).asObj
  let tr := jgetO meta "total_results" .null
  if truthy tr then some tr
  else
    let t := jgetO meta "total" .null
    if truthy t then some t
    else do
      let n ← pyLen assistants
      some (.num n)

/-- Modelled from the claim's words for C9: `meta.total_results` if
present, else `meta.total`, defaulting to the count of returned items
if absent. -/
def totalByPresence (result : Obj) : Option Json := do
  let assistants := jgetO result "assistants" (jgetO result "data" (.arr []))
  let meta ← (jgetO result "meta" (.obj [])).asObj
  match objGet meta "total_results" with
  | some v => some v
  | none =>
      match objGet meta "total" with
      | some v => some v
      | none => do
          let n ← pyLen assistants
          some (.num n)

/-- The first truthy value of the chain `meta.total_results`,
`meta.total`, `len(assistants)` (the amended reading of C9, stated
independently of `list_assistants_total`). -/
def totalByTruthiness (result : Obj) : Option Json :=
  let assistants := jgetO result "assistants" (jgetO result "data" (.arr []))
  let meta := jgetO result "meta" (.obj [])
  match meta.asObj with
  | none => none
  | some mo =>
      if truthy (jgetO mo "total_results" .null) then
        some (jgetO mo "total_results" .null)
      else if truthy (jgetO mo "total" .null) then
        some (jgetO mo "total" .null)
      else
        (pyLen assistants).map Json.num

/-! ## `json.dumps(·, indent=2)` model (used by `save_state`)

`save_state` writes `json.dumps(state, indent=2)`.  The serializer below
reproduces CPython's output for the modelled value space: 2-space
indentation, `", "` key separator, `",\n"` item separator, `ensure_ascii`
escaping of `"`/`\`/control characters/non-ASCII (with surrogate pairs
above the BMP), and `[]` / `\x7b\x7d` for empty containers. -/

/-- `n` spaces of indentation. -/
def spacesL (n : Nat) : List Char := List.replicate n ' '

/-- Four lowercase hex digits, as in Python's `\uXXXX` escapes. -/
def hex4 (n : Nat) : List Char :=
  [Nat.digitChar (n / 4096 % 16), Nat.digitChar (n / 256 % 16),
   Nat.digitChar (n / 16 % 16), Nat.digitChar (n % 16)]

/-- One string character as escaped by `json.dumps` (`ensure_ascii`):
characters outside `0x20`-`0x7e` are escaped, with short escapes for the
usual control characters and surrogate pairs beyond the BMP. -/
def escChar (c : Char) : List Char :=
  if c = '"' then ['\\', '"']
  else if c = '\\' then ['\\', '\\']
  else if c = '\n' then ['\\', 'n']
  else if c = '\r' then ['\\', 'r']
  else if c = '\t' then ['\\', 't']
  else if c = '\x08' then ['\\', 'b']
  else if c = '\x0c' then ['\\', 'f']
  else if c.toNat < 0x20 then '\\' :: 'u' :: hex4 c.toNat
  else if c.toNat < 0x7f then [c]
  else if c.toNat < 0x10000 then '\\' :: 'u' :: hex4 c.toNat
  else
    ('\\' :: 'u' :: hex4 (0xD800 + (c.toNat - 0x10000) / 0x400)) ++
    ('\\' :: 'u' :: hex4 (0xDC00 + (c.toNat - 0x10000) % 0x400))

/-- Escape a whole character list. -/
def escList : List Char → List Char
  | [] => []
  | c :: cs => escChar c ++ escList cs

/-- A JSON-serialized string, quotes included. -/
def serStr (s : String) : List Char := '"' :: (escList s.data ++ ['"'])

/-- Decimal digits of a natural (most significant first), with explicit
fuel so the definition is structurally recursive. -/
def natDigitsAux : Nat → Nat → List Char
  | 0, _ => []
  | fuel + 1, n =>
      if n < 10 then [Nat.digitChar n]
      else natDigitsAux fuel (n / 10) ++ [Nat.digitChar (n % 10)]

/-- Decimal digits of a natural (most significant first). -/
def natDigits (n : Nat) : List Char := natDigitsAux (n + 1) n

/-- A JSON-serialized integer. -/
def serNum (n : Int) : List Char :=
  if n < 0 then '-' :: natDigits n.natAbs else natDigits n.toNat

mutual

/-- `json.dumps(·, indent=2)` at indentation level `lvl`. -/
def ser (lvl : Nat) : Json → List Char
  | .null => 'n' :: ['u', 'l', 'l']
  | .bool true => 't' :: ['r', 'u', 'e']
  | .bool false => 'f' :: ['a', 'l', 's', 'e']
  | .num n => serNum n
  | .str s => serStr s
  | .arr [] => ['[', ']']
  | .arr (x :: xs) =>
      '[' :: '\n' :: (serItems (lvl + 2) x xs ++ '\n' :: (spacesL lvl ++ [']']))
  | .obj [] => ['{', '}']
  | .obj (f :: fs) =>
      '{' :: '\n' :: (serFields (lvl + 2) f fs ++ '\n' :: (spacesL lvl ++ ['}']))
termination_by j => sizeOf j

/-- The `",\n"`-separated, indented items of a non-empty array. -/
def serItems (ilvl : Nat) (x : Json) : List Json → List Char
  | [] => spacesL ilvl ++ ser ilvl x
  | y :: ys => spacesL ilvl ++ (ser ilvl x ++ ',' :: '\n' :: serItems ilvl y ys)
termination_by xs => sizeOf x + sizeOf xs

/-- The `",\n"`-separated, indented `"key": value` fields of a non-empty
object. -/
def serFields (ilvl : Nat) (f : String × Json) : List (String × Json) → List Char
  | [] => spacesL ilvl ++ (serStr f.1 ++ ':' :: ' ' :: ser ilvl f.2)
  | g :: gs =>
      spacesL ilvl ++
        (serStr f.1 ++ ':' :: ' ' :: (ser ilvl f.2 ++ ',' :: '\n' :: serFields ilvl g gs))
termination_by gs => sizeOf f + sizeOf gs
decreasing_by
  all_goals obtain ⟨k, v⟩ := f
  all_goals simp
  all_goals omega

end

/-- `json.dumps(d, indent=2)`. -/
def dumps (d : Json) : String := String.mk (ser 0 d)

/-! ## `json.loads` model (used by `load_state`)

A fuel-indexed recursive-descent parser.  Objects are built by repeated
dict assignment (`objSet`), so duplicate keys keep the first position
and the last value, as in CPython.  Restrictions of the model: numbers
are integers only (no fractions/exponents), and lone surrogate escapes
are rejected rather than decoded — neither is reachable from `dumps`
output over the modelled value space. -/

/-- JSON whitespace. -/
def isWs (c : Char) : Bool := c = ' ' || c = '\t' || c = '\n' || c = '\r'

/-- Skip leading whitespace. -/
def skipWs (cs : List Char) : List Char := cs.dropWhile isWs

/-- Does the list start with `c`? -/
def headIs (c : Char) : List Char → Bool
  | x :: _ => x = c
  | [] => false

/-- ASCII digit (code points 48-57). -/
def isDigitC (c : Char) : Bool := 48 ≤ c.toNat && c.toNat ≤ 57

/-- Continuation text that does not start with a digit (so a number
parse cannot run past its serialized digits). -/
def restOk (cont : List Char) : Prop :=
  ∀ c, cont.head? = some c → isDigitC c = false

/-- The numeric value of a hex digit. -/
def hexVal (c : Char) : Option Nat :=
  if '0' ≤ c && c ≤ '9' then some (c.toNat - 48)
  else if 'a' ≤ c && c ≤ 'f' then some (c.toNat - 87)
  else if 'A' ≤ c && c ≤ 'F' then some (c.toNat - 55)
  else none

/-- The value of a four-hex-digit escape. -/
def hex4Val (a b c d : Char) : Option Nat := do
  let x ← hexVal a
  let y ← hexVal b
  let z ← hexVal c
  let w ← hexVal d
  some (x * 4096 + y * 256 + z * 16 + w)

/-- Decode a single-character escape (`\"`, `\\`, `\/`, `\b`, `\f`,
`\n`, `\r`, `\t`). -/
def escDecode (c : Char) : Option Char :=
  if c = '"' then some '"'
  else if c = '\\' then some '\\'
  else if c = '/' then some '/'
  else if c = 'b' then some '\x08'
  else if c = 'f' then some '\x0c'
  else if c = 'n' then some '\n'
  else if c = 'r' then some '\r'
  else if c = 't' then some '\t'
  else none

/-- Read four hex digits after a `\u`. -/
def parseUHex : List Char → Option (Nat × List Char)
  | a :: b :: c :: d :: rest => (hex4Val a b c d).map fun n => (n, rest)
  | _ => none

/-- Decode a `\uXXXX` escape (the input starts at the first hex digit),
recombining surrogate pairs; lone surrogates are rejected. -/
def parseUChar (cs : List Char) : Option (Char × List Char) := do
  let (n, rest) ← parseUHex cs
  if 0xd800 ≤ n ∧ n < 0xdc00 then
    match rest with
    | '\\' :: 'u' :: rest2 => do
        let (m, rest3) ← parseUHex rest2
        if 0xdc00 ≤ m ∧ m < 0xe000 then
          some (Char.ofNat (0x10000 + (n - 0xd800) * 0x400 + (m - 0xdc00)),
            rest3)
        else none
    | _ => none
  else if 0xdc00 ≤ n ∧ n < 0xe000 then none
  else some (Char.ofNat n, rest)

/-- Parse the characters of a JSON string after the opening quote, up to
and including the closing quote.  One unit of fuel per decoded
character. -/
def parseStrChars : Nat → List Char → Option (List Char × List Char)
  | 0, _ => none
  | fuel + 1, cs =>
    match cs with
    | [] => none
    | c :: rest =>
      if c = '"' then some ([], rest)
      else if c = '\\' then
        match rest with
        | [] => none
        | e :: rest2 =>
          if e = 'u' then do
            let (ch, rest3) ← parseUChar rest2
            (parseStrChars fuel rest3).map fun p => (ch :: p.1, p.2)
          else do
            let c3 ← escDecode e
            (parseStrChars fuel rest2).map fun p => (c3 :: p.1, p.2)
      else if c.toNat < 0x20 then none
      else (parseStrChars fuel rest).map fun p => (c :: p.1, p.2)

/-- The numeric value of a digit run. -/
def digitsVal (l : List Char) : Nat :=
  l.foldl (fun acc c => acc * 10 + (c.toNat - 48)) 0

/-- Build a dict from parsed key/value pairs by repeated assignment
(duplicate keys: first position, last value — as CPython does). -/
def dictFromPairs (ps : List (String × Json)) : Obj :=
  ps.foldl (fun acc kv => objSet acc kv.1 kv.2) []

mutual

/-- Parse one JSON value (leading whitespace allowed). -/
def parseVal : Nat → List Char → Option (Json × List Char)
  | 0, _ => none
  | fuel + 1, cs =>
    match skipWs cs with
    | [] => none
    | c :: rest =>
      if c = 'n' then
        match rest with
        | 'u' :: 'l' :: 'l' :: r => some (.null, r)
        | _ => none
      else if c = 't' then
        match rest with
        | 'r' :: 'u' :: 'e' :: r => some (.bool true, r)
        | _ => none
      else if c = 'f' then
        match rest with
        | 'a' :: 'l' :: 's' :: 'e' :: r => some (.bool false, r)
        | _ => none
      else if c = '"' then
        (parseStrChars fuel rest).map fun p => (.str (String.mk p.1), p.2)
      else if c = '[' then
        let r := skipWs rest
        if headIs ']' r then some (.arr [], r.tail)
        else (parseElems fuel rest).map fun p => (.arr p.1, p.2)
      else if c = '{' then
        let r := skipWs rest
        if headIs '}' r then some (.obj [], r.tail)
        else (parseFields fuel rest).map fun p => (.obj (dictFromPairs p.1), p.2)
      else if c = '-' then
        match rest with
        | d :: _ =>
            if isDigitC d then
              some (.num (-(Int.ofNat (digitsVal (rest.takeWhile isDigitC)))),
                rest.dropWhile isDigitC)
            else none
        | [] => none
      else if isDigitC c then
        some (.num (Int.ofNat (digitsVal ((c :: rest).takeWhile isDigitC))),
          (c :: rest).dropWhile isDigitC)
      else none

/-- Parse the elements of a non-empty array after the opening bracket. -/
def parseElems : Nat → List Char → Option (List Json × List Char)
  | 0, _ => none
  | fuel + 1, cs => do
    let (v, r) ← parseVal fuel cs
    let r := skipWs r
    if headIs ',' r then
      (parseElems fuel r.tail).map fun p => (v :: p.1, p.2)
    else if headIs ']' r then some ([v], r.tail)
    else none

/-- Parse the fields of a non-empty object after the opening brace. -/
def parseFields : Nat → List Char → Option (List (String × Json) × List Char)
  | 0, _ => none
  | fuel + 1, cs =>
    let cs := skipWs cs
    if headIs '"' cs then do
      let (kcs, r) ← parseStrChars fuel cs.tail
      let r := skipWs r
      if headIs ':' r then do
        let (v, r2) ← parseVal fuel r.tail
        let r3 := skipWs r2
        if headIs ',' r3 then
          (parseFields fuel r3.tail).map fun p => ((String.mk kcs, v) :: p.1, p.2)
        else if headIs '}' r3 then some ([(String.mk kcs, v)], r3.tail)
        else none
      else none
    else none

end

/-- `json.loads`: parse a complete document, allowing surrounding
whitespace, rejecting trailing garbage. -/
def loads (s : String) : Option Json :=
  match parseVal (2 * s.length + 2) s.data with
  | some (v, rest) => if (skipWs rest).isEmpty then some v else none
  | none => none

/-- `save_state`: the exact file content written for a state document. -/
def save_state (d : Json) : String := dumps d

/-- `load_state`: `{}` if the file does not exist, else `json.loads` of
its content (`none` models the raised `JSONDecodeError`). -/
def load_state : Option String → Option Json
  | none => some (.obj [])
  | some text => loads text

/-- No later field of the dict uses key `k`. -/
def noKey (k : String) : List (String × Json) → Bool
  | [] => true
  | f :: fs => (f.1 != k) && noKey k fs

/-- All keys of an association list are distinct. -/
def nodupKeys : List (String × Json) → Bool
  | [] => true
  | f :: fs => noKey f.1 fs && nodupKeys fs

mutual

/-- A JSON value that denotes a Python document: every object has
distinct keys (Python dicts cannot hold duplicates). -/
def wfB : Json → Bool
  | .arr xs => wfL xs
  | .obj fs => nodupKeys fs && wfF fs
  | _ => true

/-- `wfB` on every element. -/
def wfL : List Json → Bool
  | [] => true
  | x :: xs => wfB x && wfL xs

/-- `wfB` on every field value. -/
def wfF : List (String × Json) → Bool
  | [] => true
  | f :: fs => wfB f.2 && wfF fs

end

mutual

/-- Fuel measure for the round-trip proof: enough `parseVal` fuel to
re-parse the serialized value. -/
def weight : Json → Nat
  | .null => 1
  | .bool _ => 1
  | .num _ => 1
  | .str s => s.length + 2
  | .arr xs => 2 + weightL xs
  | .obj fs => 2 + weightF fs

/-- Fuel for array elements. -/
def weightL : List Json → Nat
  | [] => 0
  | x :: xs => 1 + weight x + weightL xs

/-- Fuel for object fields. -/
def weightF : List (String × Json) → Nat
  | [] => 0
  | f :: fs => f.1.length + 3 + weight f.2 + weightF fs

end

/-! ## HTTP error handling (source lines 47-56)

```python
except urllib.error.HTTPError as e:
    error_body = e.read().decode("utf-8") if e.fp else ""
    print(f"HTTP Error {e.code}: {e.reason}", file=sys.stderr)
    if error_body:
        try:
            error_json = json.loads(error_body)
            print(f"Details: {json.dumps(error_json, indent=2)}", file=sys.stderr)
        except json.JSONDecodeError:
            print(f"Details: {error_body}", file=sys.stderr)
    sys.exit(1)
```

Modelled as a total function from the error response to the stderr
lines and the exit status. -/

/-- The HTTPError branch of `api_request`: stderr lines and exit code. -/
def handle_http_error (code : Nat) (reason error_body : String) :
    List String × Nat :=
  let msgs := ["HTTP Error " ++ toString code ++ ": " ++ reason]
  let msgs :=
    if error_body = "" then msgs
    else
      match loads error_body with
      | some j => msgs ++ ["Details: " ++ dumps j]
      | none => msgs ++ ["Details: " ++ error_body]
  (msgs, 1)

/-! ## `init_mission` workflow (source lines 669-706)

The remote API is modelled as an oracle mapping each request to its
(successful) response; every operation also returns the list of HTTP
requests it issued. -/

/-- One HTTP request issued by the client. -/
structure ApiCall where
  method : String
  path : String
  payload : Json
deriving Repr

/-- Response oracle: the successful JSON response for each request. -/
abbrev ApiEnv := String → String → Json → Json

/-- Python `str()` of a parsed-JSON value, as interpolated into URL
paths by f-strings (containers use `repr`-style rendering). -/
def pyStr : Json → String
  | .str s => s
  | .num n => toString n
  | .null => "None"
  | .bool true => "True"
  | .bool false => "False"
  | .arr _ => "\x5b...\x5d"
  | .obj _ => "\x7b...\x7d"

/-- `create_mission(name, instructions)`: the returned mission id and
the issued request. -/
def create_mission (env : ApiEnv) (name instructions : String) :
    Option (Json × List ApiCall) := do
  let payload : Json := .obj [("name", .str name), ("instructions", .str instructions)]
  let ro ← (env "POST" "/missions" payload).asObj
  let mo ← (mission_unwrap ro).asObj
  let mid :=
    if truthy (jgetO mo "id" .null) then jgetO mo "id" .null
    else jgetO mo "mission_id" .null
  some (mid, [⟨"POST", "/missions", payload⟩])

/-- `create_run(mission_id, input_data)`: the returned run id and the
issued request. -/
def create_run (env : ApiEnv) (mission_id : Json) (input_data : Json) :
    Option (Json × List ApiCall) := do
  let path := "/missions/" ++ pyStr mission_id ++ "/runs"
  let payload : Json := .obj [("input", input_data)]
  let ro ← (env "POST" path payload).asObj
  let runo ← (run_unwrap ro).asObj
  let rid :=
    if truthy (jgetO runo "run_id" .null) then jgetO runo "run_id" .null
    else jgetO runo "id" .null
  some (rid, [⟨"POST", path, payload⟩])

/-- `update_run(mission_id, run_id, status, result_summary,
result_payload)`: the unwrapped response and the issued request. -/
def update_run (env : ApiEnv) (mission_id run_id : Json)
    (status result_summary : Option String) (result_payload : Option Json) :
    Option (Json × List ApiCall) := do
  let data : Obj := []
  let data := match status with
    | some s => if s = "" then data else objSet data "status" (.str s)
    | none => data
  let data := match result_summary with
    | some s => if s = "" then data else objSet data "result_summary" (.str s)
    | none => data
  let data := match result_payload with
    | some p => if truthy p then objSet data "result_payload" p else data
    | none => data
  let path := "/missions/" ++ pyStr mission_id ++ "/runs/" ++ pyStr run_id
  let ro ← (env "PATCH" path (.obj data)).asObj
  some (jgetO ro "data" (.obj []), [⟨"PATCH", path, .obj data⟩])

/-- `create_plan(mission_id, run_id, steps)`. -/
def create_plan (env : ApiEnv) (mission_id run_id : Json) (steps : List Json) :
    Option (Json × List ApiCall) := do
  let path := "/missions/" ++ pyStr mission_id ++ "/runs/" ++ pyStr run_id ++ "/plan"
  let payload : Json := .obj [("steps", .arr steps)]
  let ro ← (env "POST" path payload).asObj
  some (jgetO ro "data" (.obj []), [⟨"POST", path, payload⟩])

/-- `init_mission(name, instructions, user_request, plan_steps)` over a
state document: returns `(mission_id, run_id)`, the resulting state
document, and the list of issued requests.  Resumes without any request
if the slug already has truthy `mission_id` and `run_id`. -/
def init_mission (env : ApiEnv) (name instructions user_request : String)
    (plan_steps : Option (List Json)) (state : Obj) (now : String) :
    Option (Json × Json × Obj × List ApiCall) := do
  let slug := slugify name
  let existing ← (get_mission_state state slug).asObj
  let mid0 := jgetO existing "mission_id" .null
  let rid0 := jgetO existing "run_id" .null
  if truthy mid0 && truthy rid0 then
    some (mid0, rid0, state, [])
  else do
    let (mission_id, calls1) ← create_mission env name instructions
    let state ← update_mission_state state slug
      [("mission_name", .str name), ("mission_id", mission_id), ("created_at", .str now)]
    let (run_id, calls2) ← create_run env mission_id
      (.obj [("original_request", .str user_request)])
    let state ← update_mission_state state slug [("run_id", run_id)]
    let calls3 ← match plan_steps with
      | some steps =>
          if steps.isEmpty then some ([] : List ApiCall)
          else (create_plan env mission_id run_id steps).map (·.2)
      | none => some []
    let (_, calls4) ← update_run env mission_id run_id (some "running") none none
    some (mission_id, run_id, state, calls1 ++ calls2 ++ calls3 ++ calls4)

/-! # Lemmas and claim theorems -/

/-! ## Dictionary lemmas -/

theorem objGet_objSet_self (d : Obj) (k : String) (v : Json) :
    objGet (objSet d k v) k = some v := by
  induction d with
  | nil => simp [objSet, objGet]
  | cons p rest ih =>
    obtain ⟨k2, w⟩ := p
    by_cases h : k2 = k
    · subst h; simp [objSet, objGet]
    · simp [objSet, objGet, h, ih]

theorem objGet_objSet_ne (d : Obj) (k k2 : String) (v : Json) (h : k ≠ k2) :
    objGet (objSet d k v) k2 = objGet d k2 := by
  induction d with
  | nil => simp [objSet, objGet, h]
  | cons p rest ih =>
    obtain ⟨k3, w⟩ := p
    by_cases h3 : k3 = k
    · subst h3; simp [objSet, objGet, h]
    · simp [objSet, objGet, h3, ih]

theorem dictUpdate_objGet_ne (us : Obj) : ∀ (d : Obj) (b : String),
    (∀ kv ∈ us, kv.1 ≠ b) → objGet (dictUpdate d us) b = objGet d b := by
  induction us with
  | nil => intro d b _; rfl
  | cons p rest ih =>
    intro d b h
    simp only [dictUpdate, List.foldl_cons] at *
    rw [ih (objSet d p.1 p.2) b fun kv hkv => h kv (List.mem_cons_of_mem _ hkv)]
    exact objGet_objSet_ne d p.1 b p.2 (h p (List.mem_cons_self _ _))

/-! ## C7: removing an absent slug is a no-op -/

/-- C7: for every slug not present in the state document,
`remove_mission_state` raises no error, does not call `save_state`, and
leaves the document unchanged. -/
theorem c7_remove_mission_state_absent (state : Obj) (slug : String)
    (h : objContains state slug = false) :
    remove_mission_state state slug = (state, false) := by
  simp [remove_mission_state, h]

theorem c7_witness :
    remove_mission_state [("a", Json.null)] "b" = ([("a", Json.null)], false) :=
  c7_remove_mission_state_absent [("a", Json.null)] "b" rfl

/-! ## C10: `get_memory` with the empty-string key -/

/-- C10: `get_memory` with the empty string as key returns the slug's
entire memory mapping, exactly as when no key is passed — not the value
stored under the empty-string key (demonstrated on a state that does
store a value under `""`). -/
theorem c10_get_memory_empty_key :
    (∀ (state : Obj) (slug : String),
      get_memory state slug (some "") = get_memory state slug none) ∧
    get_memory [("s", .obj [("memory", .obj [("", .str "ek"), ("k", .num 5)])])]
        "s" (some "") = some (.obj [("", .str "ek"), ("k", .num 5)]) ∧
    get_memory [("s", .obj [("memory", .obj [("", .str "ek"), ("k", .num 5)])])]
        "s" (some "") ≠ some (.str "ek") := by
  refine ⟨?_, rfl, ?_⟩
  · intro state slug
    cases h : (get_mission_state state slug).asObj <;> simp [get_memory, h]
  · intro h
    exact Json.noConfusion (Option.some.inj h)

/-! ## C1: response-envelope probing -/

/-- C1 counterexample: `create_assistant`'s unwrapping does not probe
`"data"` — on the envelope `\x7b"data": "A"\x7d` the claimed probe order
yields `"A"` while the code returns the raw envelope. -/
theorem c1_probe_order_counterexample :
    assistant_unwrap [("data", .str "A")] = .obj [("data", .str "A")] ∧
    probeKeys ["assistant", "data"] [("data", .str "A")] = .str "A" ∧
    assistant_unwrap [("data", .str "A")] ≠
      probeKeys ["assistant", "data"] [("data", .str "A")] :=
  ⟨rfl, rfl, fun h => Json.noConfusion h⟩

/-- C1 (amended): each operation probes its own fixed candidate-key list
in order and then falls back to the raw response: `"mission"` then
`"data"` for missions, only `"data"` for runs, only `"assistant"` for
assistants. -/
theorem c1_envelope_probing_per_operation (result : Obj) :
    mission_unwrap result = probeKeys ["mission", "data"] result ∧
    run_unwrap result = probeKeys ["data"] result ∧
    assistant_unwrap result = probeKeys ["assistant"] result := by
  refine ⟨?_, ?_, ?_⟩ <;>
    simp only [mission_unwrap, run_unwrap, assistant_unwrap, probeKeys, jgetO]
  · cases objGet result "mission" <;> cases objGet result "data" <;>
      simp [probeKeys]
  · cases objGet result "data" <;> simp
  · cases objGet result "assistant" <;> simp

/-! ## C9: assistant-listing totals -/

/-- C9 counterexample: with `meta = \x7b"total_results": 0\x7d` and two
returned assistants, the code's truthiness-based `or` chain skips the
present-but-zero `total_results` and reports 2, not 0. -/
theorem c9_total_presence_counterexample :
    list_assistants_total
        [("assistants", .arr [.obj [], .obj []]),
         ("meta", .obj [("total_results", .num 0)])] = some (.num 2) ∧
    totalByPresence
        [("assistants", .arr [.obj [], .obj []]),
         ("meta", .obj [("total_results", .num 0)])] = some (.num 0) ∧
    list_assistants_total
        [("assistants", .arr [.obj [], .obj []]),
         ("meta", .obj [("total_results", .num 0)])] ≠
      totalByPresence
        [("assistants", .arr [.obj [], .obj []]),
         ("meta", .obj [("total_results", .num 0)])] := by
  have e1 : list_assistants_total
      [("assistants", .arr [.obj [], .obj []]),
       ("meta", .obj [("total_results", .num 0)])] = some (.num 2) := rfl
  have e2 : totalByPresence
      [("assistants", .arr [.obj [], .obj []]),
       ("meta", .obj [("total_results", .num 0)])] = some (.num 0) := rfl
  refine ⟨e1, e2, fun h => ?_⟩
  rw [e1, e2] at h
  simp at h

/-- C9 (amended): the total is the first truthy value in the chain
`meta.total_results`, `meta.total`, `len(assistants)`; the page number is
forwarded verbatim into the query string and defaults to 1 (1-indexed). -/
theorem c9_total_truthiness_chain :
    (∀ result : Obj, list_assistants_total result = totalByTruthiness result) ∧
    list_assistants_params 25 list_assistants_default_page = "pageSize=25&page=1" := by
  constructor
  · intro result
    simp only [list_assistants_total, totalByTruthiness]
    cases h : (jgetO result "meta" (.obj [])).asObj with
    | none => simp [h]
    | some mo =>
      by_cases h1 : truthy (jgetO mo "total_results" Json.null) = true
      · simp [h, h1]
      · by_cases h2 : truthy (jgetO mo "total" Json.null) = true
        · simp [h, h1, h2]
        · cases hp : pyLen (jgetO result "assistants" (jgetO result "data" (.arr []))) <;>
            simp [h, h1, h2, hp]
  · rfl

/-! ## C6: `update_mission_state` is a shallow partial merge -/

/-- C6: on a slug whose entry already holds field `b`, merging updates
that do not touch `b` keeps `b`'s value, and every other slug's entry is
unchanged. -/
theorem c6_update_mission_state_partial_merge (state : Obj) (slug b : String)
    (e : Obj) (v : Json) (updates : Obj)
    (hentry : objGet state slug = some (.obj e))
    (hb : objGet e b = some v)
    (hdisj : ∀ kv ∈ updates, kv.1 ≠ b) :
    update_mission_state state slug updates =
        some (objSet state slug (.obj (dictUpdate e updates))) ∧
    objGet (dictUpdate e updates) b = some v ∧
    ∀ slug2, slug2 ≠ slug →
      objGet (objSet state slug (.obj (dictUpdate e updates))) slug2 =
        objGet state slug2 := by
  refine ⟨?_, ?_, ?_⟩
  · simp [update_mission_state, jgetO, hentry, Json.asObj]
  · rw [dictUpdate_objGet_ne updates e b hdisj]; exact hb
  · intro slug2 h2
    exact objGet_objSet_ne state slug slug2 _ fun hh => h2 hh.symm

theorem c6_witness :
    update_mission_state [("s", .obj [("b", .num 1)])] "s" [("a", .num 2)] =
      some [("s", .obj [("b", .num 1), ("a", .num 2)])] ∧
    objGet (dictUpdate [("b", .num 1)] [("a", .num 2)]) "b" = some (.num 1) ∧
    objGet [("s", .obj [("b", .num 1), ("a", .num 2)]), ("t", .null)] "t" =
      objGet [("s", .obj [("b", .num 1)]), ("t", .null)] "t" := by
  have h := c6_update_mission_state_partial_merge
    [("s", .obj [("b", .num 1)]), ("t", .null)] "s" "b" [("b", .num 1)]
    (.num 1) [("a", .num 2)] rfl rfl
    (by rintro kv hkv; simp at hkv; subst hkv; decide)
  exact ⟨c6_update_mission_state_partial_merge [("s", .obj [("b", .num 1)])] "s" "b"
      [("b", .num 1)] (.num 1) [("a", .num 2)] rfl rfl
      (by rintro kv hkv; simp at hkv; subst hkv; decide) |>.1,
    h.2.1, h.2.2 "t" (by decide)⟩

/-! ## C3: `append_memory` -/

theorem append_memory_absent (state : Obj) (slug key : String) (item : Json)
    (t : String) (e mo : Obj)
    (he : (jgetO state slug (.obj [])).asObj = some e)
    (hm : (jgetO e "memory" (.obj [])).asObj = some mo)
    (h : objGet mo key = none) :
    append_memory state slug key item t =
      some (objSet state slug (.obj (objSet (objSet e "memory"
        (.obj (objSet mo key (.arr [item])))) "last_updated" (.str t)))) := by
  simp [append_memory, he, hm, h]

theorem append_memory_existing_list (state : Obj) (slug key : String)
    (item : Json) (t : String) (e mo : Obj) (xs : List Json)
    (he : (jgetO state slug (.obj [])).asObj = some e)
    (hm : (jgetO e "memory" (.obj [])).asObj = some mo)
    (h : objGet mo key = some (.arr xs)) :
    append_memory state slug key item t =
      some (objSet state slug (.obj (objSet (objSet e "memory"
        (.obj (objSet mo key (.arr (xs ++ [item]))))) "last_updated" (.str t)))) := by
  simp [append_memory, he, hm, h]

theorem append_memory_scalar (state : Obj) (slug key : String)
    (item v : Json) (t : String) (e mo : Obj)
    (he : (jgetO state slug (.obj [])).asObj = some e)
    (hm : (jgetO e "memory" (.obj [])).asObj = some mo)
    (h : objGet mo key = some v) (hv : v.isArr = false) :
    append_memory state slug key item t =
      some (objSet state slug (.obj (objSet (objSet e "memory"
        (.obj (objSet mo key (.arr [v, item])))) "last_updated" (.str t)))) := by
  cases v <;> simp_all [append_memory, Json.isArr]

theorem objGet_entry_memory (e m : Obj) (t : String) :
    objGet (objSet (objSet e "memory" (.obj m)) "last_updated" (.str t))
      "memory" = some (.obj m) := by
  rw [objGet_objSet_ne _ _ _ _ (by decide)]
  exact objGet_objSet_self _ _ _

theorem memValue_objSet_memory (state : Obj) (slug key t : String) (e m : Obj) :
    memValue (objSet state slug (.obj (objSet (objSet e "memory" (.obj m))
      "last_updated" (.str t)))) slug key = objGet m key := by
  simp [memValue, objGet_objSet_self, objGet_entry_memory, Json.asObj]

theorem jget_objSet_self_asObj (state : Obj) (slug : String) (E : Obj) :
    (jgetO (objSet state slug (.obj E)) slug (.obj [])).asObj = some E := by
  simp [jgetO, objGet_objSet_self, Json.asObj]

/-- C3: appending to an absent memory key creates exactly `[item]`; a
second append yields `[item, item2]` in insertion order; appending to a
key holding a non-list value `v` coerces it to `[v]` first, yielding
`[v, item]`.  `e` / `mo` are the slug entry and its `memory` dict (dicts
or absent, as `append_memory` itself requires). -/
theorem c3_append_memory_spec (state : Obj) (slug key : String)
    (item item2 v : Json) (t1 t2 : String) (e mo : Obj)
    (he : (jgetO state slug (.obj [])).asObj = some e)
    (hm : (jgetO e "memory" (.obj [])).asObj = some mo) :
    (objGet mo key = none →
      (append_memory state slug key item t1).bind
          (fun s1 => memValue s1 slug key) = some (.arr [item]) ∧
      ((append_memory state slug key item t1).bind
          (fun s1 => append_memory s1 slug key item2 t2)).bind
          (fun s2 => memValue s2 slug key) = some (.arr [item, item2])) ∧
    (objGet mo key = some v → v.isArr = false →
      (append_memory state slug key item t1).bind
          (fun s1 => memValue s1 slug key) = some (.arr [v, item])) := by
  constructor
  · intro h
    rw [append_memory_absent state slug key item t1 e mo he hm h]
    constructor
    · simp only [Option.some_bind]
      rw [memValue_objSet_memory]
      exact objGet_objSet_self _ _ _
    · simp only [Option.some_bind]
      rw [append_memory_existing_list _ slug key item2 t2
        (objSet (objSet e "memory" (.obj (objSet mo key (.arr [item]))))
          "last_updated" (.str t1))
        (objSet mo key (.arr [item])) [item]
        (jget_objSet_self_asObj _ _ _)
        (by rw [jgetO, objGet_entry_memory]; rfl)
        (objGet_objSet_self _ _ _)]
      simp only [Option.some_bind]
      rw [memValue_objSet_memory]
      simpa using objGet_objSet_self (objSet mo key (.arr [item])) key _
  · intro h hv
    rw [append_memory_scalar state slug key item v t1 e mo he hm h hv]
    simp only [Option.some_bind]
    rw [memValue_objSet_memory]
    exact objGet_objSet_self _ _ _

theorem c3_witness :
    (append_memory [] "m" "k" (.str "a") "t1").bind
        (fun s1 => memValue s1 "m" "k") = some (.arr [.str "a"]) ∧
    ((append_memory [] "m" "k" (.str "a") "t1").bind
        (fun s1 => append_memory s1 "m" "k" (.str "b") "t2")).bind
        (fun s2 => memValue s2 "m" "k") = some (.arr [.str "a", .str "b"]) ∧
    (append_memory [("m", .obj [("memory", .obj [("k", .str "v0")])])] "m" "k"
        (.str "a") "t1").bind (fun s1 => memValue s1 "m" "k") =
      some (.arr [.str "v0", .str "a"]) :=
  ⟨((c3_append_memory_spec [] "m" "k" (.str "a") (.str "b") Json.null
      "t1" "t2" [] [] rfl rfl).1 rfl).1,
   ((c3_append_memory_spec [] "m" "k" (.str "a") (.str "b") Json.null
      "t1" "t2" [] [] rfl rfl).1 rfl).2,
   (c3_append_memory_spec [("m", .obj [("memory", .obj [("k", .str "v0")])])]
      "m" "k" (.str "a") (.str "b") (.str "v0") "t1" "t2"
      [("memory", .obj [("k", .str "v0")])] [("k", .str "v0")] rfl rfl).2
      rfl rfl⟩

/-! ## C2: `init_mission` resumes idempotently -/

/-- C2: when the local state already has a (truthy) `mission_id` and
`run_id` under the mission's slug, `init_mission` returns exactly that
pair, issues no requests at all, and leaves the state document
unchanged. -/
theorem c2_init_mission_idempotent_resume (env : ApiEnv)
    (name instructions user_request now : String)
    (plan_steps : Option (List Json)) (state : Obj) (e : Obj) (m r : String)
    (hentry : objGet state (slugify name) = some (.obj e))
    (hm : objGet e "mission_id" = some (.str m)) (hm0 : m ≠ "")
    (hr : objGet e "run_id" = some (.str r)) (hr0 : r ≠ "") :
    init_mission env name instructions user_request plan_steps state now =
      some (.str m, .str r, state, []) := by
  simp [init_mission, get_mission_state, jgetO, hentry, Json.asObj, hm, hr,
    truthy, hm0, hr0]

theorem c2_witness :
    init_mission (fun _ _ _ => Json.null) "x" "i" "u" none
      [("x", .obj [("mission_id", .str "m1"), ("run_id", .str "r1")])] "T" =
      some (.str "m1", .str "r1",
        [("x", .obj [("mission_id", .str "m1"), ("run_id", .str "r1")])], []) :=
  c2_init_mission_idempotent_resume (fun _ _ _ => Json.null) "x" "i" "u" "T"
    none [("x", .obj [("mission_id", .str "m1"), ("run_id", .str "r1")])]
    [("mission_id", .str "m1"), ("run_id", .str "r1")] "m1" "r1"
    rfl rfl (by decide) rfl (by decide)

/-! ## C4: HTTP error reporting -/

/-- C4: on any HTTP error response the handler exits with status 1, its
first stderr line is `HTTP Error <code>: <reason>`, and for a non-empty
body it prints the pretty-printed JSON detail when the body parses and
falls back to the raw body text when it does not (the non-JSON case
returns normally — no secondary parse error escapes). -/
theorem c4_http_error_reporting (code : Nat) (reason body : String) :
    (handle_http_error code reason body).2 = 1 ∧
    (handle_http_error code reason body).1.head? =
      some ("HTTP Error " ++ toString code ++ ": " ++ reason) ∧
    (body ≠ "" → ∀ j, loads body = some j →
      (handle_http_error code reason body).1 =
        ["HTTP Error " ++ toString code ++ ": " ++ reason,
         "Details: " ++ dumps j]) ∧
    (body ≠ "" → loads body = none →
      (handle_http_error code reason body).1 =
        ["HTTP Error " ++ toString code ++ ": " ++ reason,
         "Details: " ++ body]) := by
  refine ⟨rfl, ?_, ?_, ?_⟩
  · by_cases hb : body = ""
    · simp [handle_http_error, hb]
    · cases h : loads body <;> simp [handle_http_error, hb, h]
  · intro hb j hj
    simp [handle_http_error, hb, hj]
  · intro hb hj
    simp [handle_http_error, hb, hj]

theorem c4_witness :
    (handle_http_error 422 "Unprocessable Entity" "[1, 2]").1 =
      ["HTTP Error 422: Unprocessable Entity", "Details: [\n  1,\n  2\n]"] ∧
    (handle_http_error 422 "Unprocessable Entity" "oops").1 =
      ["HTTP Error 422: Unprocessable Entity", "Details: oops"] ∧
    (handle_http_error 422 "Unprocessable Entity" "[1, 2]").2 = 1 := by
  refine ⟨?_, ?_, (c4_http_error_reporting 422 "Unprocessable Entity" "[1, 2]").1⟩
  · have h := (c4_http_error_reporting 422 "Unprocessable Entity" "[1, 2]").2.2.1
      (by decide) (.arr [.num 1, .num 2]) rfl
    rw [h, show dumps (Json.arr [.num 1, .num 2]) = "[\n  1,\n  2\n]" by
      simp only [dumps, ser, serItems, serNum, natDigits, natDigitsAux, spacesL]
      decide]
    decide
  · exact ((c4_http_error_reporting 422 "Unprocessable Entity" "oops").2.2.2
      (by decide) rfl).trans (by decide)

/-! ## C5: `slugify` is idempotent -/

theorem okChar_dashify (c : Char) : okChar (dashify c) = true := by
  by_cases h : isLowerAlnum c = true <;> simp [dashify, okChar, h]

theorem toLower_fix (c : Char) (h : okChar c = true) : Char.toLower c = c := by
  have hb : (97 ≤ c.toNat ∧ c.toNat ≤ 122) ∨ (48 ≤ c.toNat ∧ c.toNat ≤ 57) ∨
      c = '-' := by
    simpa [okChar, isLowerAlnum, Bool.or_eq_true, Bool.and_eq_true,
      decide_eq_true_eq, or_assoc] using h
  rcases hb with hb | hb | hb
  · simp only [Char.toLower]
    rw [if_neg (by omega)]
  · simp only [Char.toLower]
    rw [if_neg (by omega)]
  · subst hb; decide

theorem dashify_fix (c : Char) (h : okChar c = true) : dashify c = c := by
  have hb : isLowerAlnum c = true ∨ c = '-' := by
    simpa [okChar, Bool.or_eq_true, decide_eq_true_eq] using h
  rcases hb with hb | hb
  · simp [dashify, hb]
  · subst hb; decide

theorem map_fix {f : Char → Char} (l : List Char)
    (h : ∀ c ∈ l, f c = c) : l.map f = l := by
  induction l with
  | nil => rfl
  | cons a t ih =>
    simp only [List.map_cons, h a (List.mem_cons_self a t)]
    rw [ih fun c hc => h c (List.mem_cons_of_mem a hc)]

theorem collapse_sub : ∀ (l : List Char) (c : Char), c ∈ collapse l → c ∈ l := by
  intro l
  induction l with
  | nil => simp [collapse]
  | cons a tl ih =>
    cases tl with
    | nil => simp [collapse]
    | cons b rest =>
      intro c hc
      by_cases h : a = '-' ∧ b = '-'
      · simp only [collapse, if_pos h] at hc
        exact List.mem_cons_of_mem a (ih c hc)
      · simp only [collapse, if_neg h, List.mem_cons] at hc
        rcases hc with hc | hc
        · exact hc ▸ List.mem_cons_self a _
        · exact List.mem_cons_of_mem a (ih c hc)

theorem collapse_cons_head (rest : List Char) : ∀ b : Char,
    ∃ t, collapse (b :: rest) = b :: t := by
  induction rest with
  | nil => exact fun b => ⟨[], rfl⟩
  | cons c r ih =>
    intro b
    by_cases h : b = '-' ∧ c = '-'
    · obtain ⟨t, ht⟩ := ih c
      exact ⟨t, by rw [collapse, if_pos h, ht, h.1, h.2]⟩
    · exact ⟨collapse (c :: r), by rw [collapse, if_neg h]⟩

theorem chain_collapse : ∀ l : List Char,
    List.Chain' (fun a b => ¬(a = '-' ∧ b = '-')) (collapse l) := by
  intro l
  induction l with
  | nil => simp [collapse]
  | cons a tl ih =>
    cases tl with
    | nil => simp [collapse]
    | cons b rest =>
      by_cases h : a = '-' ∧ b = '-'
      · simpa only [collapse, if_pos h] using ih
      · rw [collapse, if_neg h]
        obtain ⟨t, ht⟩ := collapse_cons_head rest b
        rw [ht]
        rw [ht] at ih
        exact List.chain'_cons.mpr ⟨h, ih⟩

theorem collapse_fix : ∀ l : List Char,
    List.Chain' (fun a b => ¬(a = '-' ∧ b = '-')) l → collapse l = l := by
  intro l
  induction l with
  | nil => intro _; rfl
  | cons a tl ih =>
    cases tl with
    | nil => intro _; rfl
    | cons b rest =>
      intro h
      have h2 := List.chain'_cons.mp h
      rw [collapse, if_neg h2.1, ih h2.2]

theorem chain_dropWhile {R : Char → Char → Prop} (p : Char → Bool) :
    ∀ l : List Char, List.Chain' R l → List.Chain' R (l.dropWhile p) := by
  intro l
  induction l with
  | nil => intro h; exact h
  | cons a t ih =>
    intro h
    by_cases hp : p a = true
    · rw [List.dropWhile_cons, if_pos hp]
      exact ih h.tail
    · rwa [List.dropWhile_cons, if_neg hp]

theorem head_dropWhile_ne (p : Char → Bool) :
    ∀ (l : List Char) (c : Char), (l.dropWhile p).head? = some c →
      p c = false := by
  intro l
  induction l with
  | nil => simp
  | cons a t ih =>
    intro c hc
    by_cases hp : p a = true
    · rw [List.dropWhile_cons, if_pos hp] at hc
      exact ih c hc
    · rw [List.dropWhile_cons, if_neg hp] at hc
      simp only [List.head?_cons, Option.some.injEq] at hc
      subst hc
      simpa using hp

theorem mem_stripDashes (l : List Char) (c : Char) (h : c ∈ stripDashes l) :
    c ∈ l := by
  simp only [stripDashes, List.mem_reverse] at h
  have h2 := (List.dropWhile_sublist _).mem h
  rw [List.mem_reverse] at h2
  exact (List.dropWhile_sublist _).mem h2

theorem chain_stripDashes {R : Char → Char → Prop}
    (hsymm : ∀ a b, R a b → R b a) (l : List Char) (h : List.Chain' R l) :
    List.Chain' R (stripDashes l) := by
  have h1 : List.Chain' R (l.dropWhile (· = '-')) := chain_dropWhile _ l h
  have h2 : List.Chain' R (l.dropWhile (· = '-')).reverse := by
    rw [List.chain'_reverse]
    exact h1.imp fun a b hab => hsymm a b hab
  have h3 := chain_dropWhile (R := R) (· = '-') _ h2
  rw [stripDashes, List.chain'_reverse]
  exact h3.imp fun a b hab => hsymm a b hab

theorem stripDashes_decompose (l : List Char) :
    ∃ t, l.dropWhile (· = '-') = stripDashes l ++ t := by
  obtain ⟨s, hs⟩ := List.dropWhile_suffix (l := (l.dropWhile (· = '-')).reverse)
    (p := (· = '-'))
  refine ⟨s.reverse, ?_⟩
  have := congrArg List.reverse hs
  simp only [List.reverse_append, List.reverse_reverse] at this
  rw [stripDashes]
  exact this.symm

theorem head_stripDashes (l : List Char) (c : Char)
    (h : (stripDashes l).head? = some c) : c ≠ '-' := by
  obtain ⟨t, ht⟩ := stripDashes_decompose l
  cases hy : stripDashes l with
  | nil => rw [hy] at h; cases h
  | cons c0 t0 =>
    rw [hy] at h
    simp only [List.head?_cons, Option.some.injEq] at h
    subst h
    have h2 : (l.dropWhile (· = '-')).head? = some c0 := by
      rw [ht, hy]; rfl
    have h3 := head_dropWhile_ne _ l c0 h2
    simpa using h3

theorem getLast_stripDashes (l : List Char) (c : Char)
    (h : (stripDashes l).getLast? = some c) : c ≠ '-' := by
  rw [stripDashes, List.getLast?_reverse] at h
  have := head_dropWhile_ne _ _ c h
  simpa using this

theorem dropWhile_fix (p : Char → Bool) (l : List Char)
    (h : ∀ c, l.head? = some c → p c = false) : l.dropWhile p = l := by
  cases l with
  | nil => rfl
  | cons a t => rw [List.dropWhile_cons, if_neg (by simp [h a rfl])]

theorem stripDashes_fix (l : List Char)
    (hh : ∀ c, l.head? = some c → c ≠ '-')
    (hl : ∀ c, l.getLast? = some c → c ≠ '-') : stripDashes l = l := by
  rw [stripDashes, dropWhile_fix _ l (by intro c hc; simpa using hh c hc),
    dropWhile_fix _ l.reverse
      (by intro c hc; rw [List.head?_reverse] at hc; simpa using hl c hc),
    List.reverse_reverse]

/-- C5: `slugify` is idempotent — `slugify (slugify x) = slugify x` for
every string `x` — and `slugify "Find Contractors!"` is
`"find-contractors"`.  (Determinism is immediate: `slugify` is a pure
function of its argument.) -/
theorem c5_slugify_idempotent :
    (∀ x : String, slugify (slugify x) = slugify x) ∧
    slugify "Find Contractors!" = "find-contractors" := by
  constructor
  · intro x
    have hok : ∀ c ∈ stripDashes (collapse ((x.data.map Char.toLower).map dashify)),
        okChar c = true := by
      intro c hc
      have h1 := collapse_sub _ c (mem_stripDashes _ c hc)
      obtain ⟨c0, _, hc0⟩ := List.mem_map.mp h1
      rw [← hc0]
      exact okChar_dashify c0
    have hch := chain_stripDashes
      (R := fun a b => ¬(a = '-' ∧ b = '-'))
      (fun a b hab h2 => hab ⟨h2.2, h2.1⟩) _
      (chain_collapse ((x.data.map Char.toLower).map dashify))
    show String.mk (stripDashes (collapse
      ((((stripDashes (collapse ((x.data.map Char.toLower).map dashify)))).map
        Char.toLower).map dashify))) = _
    rw [map_fix _ fun c hc => toLower_fix c (hok c hc),
      map_fix _ fun c hc => dashify_fix c (hok c hc),
      collapse_fix _ hch,
      stripDashes_fix _ (head_stripDashes _) (getLast_stripDashes _)]
    rfl
  · rfl

/-! ## C8: `save`/`load` round trip — digit and whitespace lemmas -/

theorem digitChar_isDigit (n : Nat) (h : n < 10) :
    isDigitC (Nat.digitChar n) = true := by
  interval_cases n <;> decide

theorem digitChar_val (n : Nat) (h : n < 10) :
    (Nat.digitChar n).toNat - 48 = n := by
  interval_cases n <;> decide

theorem natDigitsAux_digits : ∀ (fuel n : Nat), ∀ c ∈ natDigitsAux fuel n,
    isDigitC c = true := by
  intro fuel
  induction fuel with
  | zero => simp [natDigitsAux]
  | succ f ih =>
    intro n c hc
    rw [natDigitsAux] at hc
    by_cases h : n < 10
    · rw [if_pos h] at hc
      simp only [List.mem_singleton] at hc
      subst hc
      exact digitChar_isDigit n h
    · rw [if_neg h] at hc
      rcases List.mem_append.mp hc with hc | hc
      · exact ih _ c hc
      · simp only [List.mem_singleton] at hc
        subst hc
        exact digitChar_isDigit _ (Nat.mod_lt n (by omega))

theorem natDigitsAux_ne_nil (fuel n : Nat) (h : 0 < fuel) :
    natDigitsAux fuel n ≠ [] := by
  cases fuel with
  | zero => omega
  | succ f =>
    rw [natDigitsAux]
    by_cases h10 : n < 10 <;> simp [h10]

theorem digitsVal_append_digit (l : List Char) (c : Char) :
    digitsVal (l ++ [c]) = digitsVal l * 10 + (c.toNat - 48) := by
  simp [digitsVal, List.foldl_append]

theorem digitsVal_natDigitsAux : ∀ (fuel n : Nat), n < fuel →
    digitsVal (natDigitsAux fuel n) = n := by
  intro fuel
  induction fuel with
  | zero => omega
  | succ f ih =>
    intro n h
    rw [natDigitsAux]
    by_cases h10 : n < 10
    · rw [if_pos h10]
      have := digitChar_val n h10
      simp [digitsVal]
      omega
    · have hdiv : n / 10 < n := Nat.div_lt_self (by omega) (by omega)
      rw [if_neg h10, digitsVal_append_digit, ih (n / 10) (by omega),
        digitChar_val _ (Nat.mod_lt n (by omega))]
      omega

theorem digitsVal_natDigits (n : Nat) : digitsVal (natDigits n) = n :=
  digitsVal_natDigitsAux (n + 1) n (by omega)

theorem natDigits_digits (n : Nat) : ∀ c ∈ natDigits n, isDigitC c = true :=
  natDigitsAux_digits (n + 1) n

theorem natDigits_ne_nil (n : Nat) : natDigits n ≠ [] :=
  natDigitsAux_ne_nil (n + 1) n (by omega)

theorem takeWhile_append_all {p : Char → Bool} : ∀ (l r : List Char),
    (∀ c ∈ l, p c = true) → (∀ c, r.head? = some c → p c = false) →
    (l ++ r).takeWhile p = l ∧ (l ++ r).dropWhile p = r := by
  intro l
  induction l with
  | nil =>
    intro r _ hr
    cases r with
    | nil => exact ⟨rfl, rfl⟩
    | cons a t =>
      constructor
      · simp [List.takeWhile_cons, hr a rfl]
      · simp [List.dropWhile_cons, hr a rfl]
  | cons a t ih =>
    intro r hl hr
    have h1 := hl a (List.mem_cons_self a t)
    have h2 := ih r (fun c hc => hl c (List.mem_cons_of_mem a hc)) hr
    constructor
    · simp [List.takeWhile_cons, h1, h2.1]
    · simp [List.dropWhile_cons, h1, h2.2]

theorem isDigitC_bounds (d : Char) (h : isDigitC d = true) :
    48 ≤ d.toNat ∧ d.toNat ≤ 57 := by
  simpa [isDigitC, Bool.and_eq_true, decide_eq_true_eq] using h

theorem isDigitC_ne (d : Char) (h : isDigitC d = true) (x : Char)
    (hx : ¬(48 ≤ x.toNat ∧ x.toNat ≤ 57)) : d ≠ x := by
  intro he
  exact hx (he ▸ isDigitC_bounds d h)

theorem isDigitC_not_ws (d : Char) (h : isDigitC d = true) :
    isWs d = false := by
  have hb := isDigitC_bounds d h
  simp only [isWs, Bool.or_eq_false_iff, decide_eq_false_iff_not]
  refine ⟨⟨⟨?_, ?_⟩, ?_⟩, ?_⟩ <;>
    · intro he; rw [he] at hb; exact absurd hb (by decide)

theorem skipWs_cons_not (c : Char) (t : List Char) (h : isWs c = false) :
    skipWs (c :: t) = c :: t := by
  simp [skipWs, List.dropWhile_cons, h]

theorem skipWs_ws_append : ∀ (w t : List Char), (∀ c ∈ w, isWs c = true) →
    skipWs (w ++ t) = skipWs t := by
  intro w
  induction w with
  | nil => intro t _; rfl
  | cons a r ih =>
    intro t h
    simp only [List.cons_append, skipWs, List.dropWhile_cons,
      h a (List.mem_cons_self a r), if_true]
    exact ih t fun c hc => h c (List.mem_cons_of_mem a hc)

theorem skipWs_spacesL (n : Nat) (t : List Char) :
    skipWs (spacesL n ++ t) = skipWs t := by
  refine skipWs_ws_append _ t fun c hc => ?_
  rw [spacesL] at hc
  rw [List.eq_of_mem_replicate hc]
  rfl

theorem skipWs_nl_spaces (n : Nat) (t : List Char) :
    skipWs ('\n' :: (spacesL n ++ t)) = skipWs t := by
  have : ('\n' :: (spacesL n ++ t)) = ('\n' :: spacesL n) ++ t := by simp
  rw [this]
  refine skipWs_ws_append _ t fun c hc => ?_
  rcases List.mem_cons.mp hc with hc | hc
  · rw [hc]; rfl
  · rw [spacesL] at hc; rw [List.eq_of_mem_replicate hc]; rfl

theorem parseVal_ws_pad (fuel : Nat) (w t : List Char)
    (h : ∀ c ∈ w, isWs c = true) :
    parseVal fuel (w ++ t) = parseVal fuel t := by
  cases fuel with
  | zero => rfl
  | succ f => rw [parseVal, parseVal, skipWs_ws_append w t h]

/-! ## C8: string-escape round trip -/

theorem char_valid_nat (c : Char) :
    c.toNat < 0xd800 ∨ (0xdfff < c.toNat ∧ c.toNat < 0x110000) := by
  have h := c.valid
  rcases h with h | h
  · exact Or.inl (by exact_mod_cast h)
  · exact Or.inr ⟨by exact_mod_cast h.1, by exact_mod_cast h.2⟩

theorem hexVal_digitChar (m : Nat) (h : m < 16) :
    hexVal (Nat.digitChar m) = some m := by
  interval_cases m <;> decide

theorem hex4Val_hex4 (n : Nat) (h : n < 65536) :
    hex4Val (Nat.digitChar (n / 4096 % 16)) (Nat.digitChar (n / 256 % 16))
      (Nat.digitChar (n / 16 % 16)) (Nat.digitChar (n % 16)) = some n := by
  have h1 := hexVal_digitChar (n / 4096 % 16) (Nat.mod_lt _ (by omega))
  have h2 := hexVal_digitChar (n / 256 % 16) (Nat.mod_lt _ (by omega))
  have h3 := hexVal_digitChar (n / 16 % 16) (Nat.mod_lt _ (by omega))
  have h4 := hexVal_digitChar (n % 16) (Nat.mod_lt _ (by omega))
  simp only [hex4Val, h1, h2, h3, h4, Option.bind_eq_bind, Option.some_bind,
    Option.some.injEq]
  omega

theorem parseUChar_bmp (n : Nat) (rest : List Char) (hn : n < 65536)
    (hs1 : ¬(0xd800 ≤ n ∧ n < 0xdc00)) (hs2 : ¬(0xdc00 ≤ n ∧ n < 0xe000)) :
    parseUChar (hex4 n ++ rest) = some (Char.ofNat n, rest) := by
  have g1 : (0xd800 ≤ n ∧ n < 0xdc00) = False := eq_false hs1
  have g2 : (0xdc00 ≤ n ∧ n < 0xe000) = False := eq_false hs2
  rw [hex4]
  simp only [List.cons_append, List.nil_append, parseUChar, parseUHex,
    hex4Val_hex4 n hn, Option.map_some', Option.bind_eq_bind,
    Option.some_bind, g1, g2, ite_false]

theorem parseUChar_pair (n m : Nat) (rest : List Char)
    (h1 : 0xd800 ≤ n ∧ n < 0xdc00) (h2 : 0xdc00 ≤ m ∧ m < 0xe000) :
    parseUChar (hex4 n ++ ('\\' :: 'u' :: (hex4 m ++ rest))) =
      some (Char.ofNat (0x10000 + (n - 0xd800) * 0x400 + (m - 0xdc00)),
        rest) := by
  have g1 : (0xd800 ≤ n ∧ n < 0xdc00) = True := eq_true h1
  have g2 : (0xdc00 ≤ m ∧ m < 0xe000) = True := eq_true h2
  rw [hex4, hex4]
  simp only [List.cons_append, List.nil_append, parseUChar, parseUHex,
    hex4Val_hex4 n (by omega), hex4Val_hex4 m (by omega), Option.map_some',
    Option.bind_eq_bind, Option.some_bind, g1, g2, ite_true]

theorem parseStrChars_u (fuel : Nat) (cs : List Char) :
    parseStrChars (fuel + 1) ('\\' :: 'u' :: cs) =
      (parseUChar cs).bind fun q =>
        (parseStrChars fuel q.2).map fun p => (q.1 :: p.1, p.2) := rfl

theorem parseStrChars_raw (fuel : Nat) (c : Char) (rest : List Char)
    (h1 : ¬c = '"') (h2 : ¬c = '\\') (h3 : ¬c.toNat < 0x20) :
    parseStrChars (fuel + 1) (c :: rest) =
      (parseStrChars fuel rest).map fun p => (c :: p.1, p.2) := by
  have g1 : (c = '"') = False := eq_false h1
  have g2 : (c = '\\') = False := eq_false h2
  have g3 : (c.toNat < 0x20) = False := eq_false h3
  simp only [parseStrChars, g1, g2, g3, ite_false]

theorem parseStrChars_escChar (c : Char) (cont : List Char) (fuel : Nat) :
    parseStrChars (fuel + 1) (escChar c ++ cont) =
      (parseStrChars fuel cont).map fun p => (c :: p.1, p.2) := by
  have hv := char_valid_nat c
  by_cases h1 : c = '"'
  · subst h1; rfl
  by_cases h2 : c = '\\'
  · subst h2; rfl
  by_cases hn : c = '\n'
  · subst hn; rfl
  by_cases hr : c = '\r'
  · subst hr; rfl
  by_cases htb : c = '\t'
  · subst htb; rfl
  by_cases hb : c = '\x08'
  · subst hb; rfl
  by_cases hf : c = '\x0c'
  · subst hf; rfl
  by_cases h3 : c.toNat < 0x20
  · have hone : escChar c = '\\' :: 'u' :: hex4 c.toNat := by
      rw [escChar, if_neg h1, if_neg h2, if_neg hn, if_neg hr, if_neg htb,
        if_neg hb, if_neg hf, if_pos h3]
    rw [hone, List.cons_append, List.cons_append, parseStrChars_u,
      parseUChar_bmp c.toNat cont (by omega) (by omega) (by omega),
      Option.some_bind, Char.ofNat_toNat]
  by_cases h4 : c.toNat < 0x7f
  · have hone : escChar c = [c] := by
      rw [escChar, if_neg h1, if_neg h2, if_neg hn, if_neg hr, if_neg htb,
        if_neg hb, if_neg hf, if_neg h3, if_pos h4]
    rw [hone, List.singleton_append, parseStrChars_raw fuel c cont h1 h2 h3]
  by_cases h5 : c.toNat < 0x10000
  · have hone : escChar c = '\\' :: 'u' :: hex4 c.toNat := by
      rw [escChar, if_neg h1, if_neg h2, if_neg hn, if_neg hr, if_neg htb,
        if_neg hb, if_neg hf, if_neg h3, if_neg h4, if_pos h5]
    rw [hone, List.cons_append, List.cons_append, parseStrChars_u,
      parseUChar_bmp c.toNat cont (by omega) (by omega) (by omega),
      Option.some_bind, Char.ofNat_toNat]
  · have hone : escChar c =
        ('\\' :: 'u' :: hex4 (0xd800 + (c.toNat - 0x10000) / 0x400)) ++
        ('\\' :: 'u' :: hex4 (0xdc00 + (c.toNat - 0x10000) % 0x400)) := by
      rw [escChar, if_neg h1, if_neg h2, if_neg hn, if_neg hr, if_neg htb,
        if_neg hb, if_neg hf, if_neg h3, if_neg h4, if_neg h5]
    have hhi : (c.toNat - 0x10000) / 0x400 < 0x400 := by omega
    have harith : 0x10000 +
        (0xd800 + (c.toNat - 0x10000) / 0x400 - 0xd800) * 0x400 +
        (0xdc00 + (c.toNat - 0x10000) % 0x400 - 0xdc00) = c.toNat := by
      omega
    rw [hone]
    have hshape : (('\\' :: 'u' :: hex4 (0xd800 + (c.toNat - 0x10000) / 0x400)) ++
        ('\\' :: 'u' :: hex4 (0xdc00 + (c.toNat - 0x10000) % 0x400))) ++ cont =
        '\\' :: 'u' :: (hex4 (0xd800 + (c.toNat - 0x10000) / 0x400) ++
          ('\\' :: 'u' :: (hex4 (0xdc00 + (c.toNat - 0x10000) % 0x400) ++ cont))) := by
      simp
    rw [hshape, parseStrChars_u,
      parseUChar_pair _ _ cont (by omega) (by omega),
      Option.some_bind, harith, Char.ofNat_toNat]

theorem parseStrChars_escList : ∀ (l : List Char) (fuel : Nat)
    (cont : List Char), l.length + 1 ≤ fuel →
    parseStrChars fuel (escList l ++ ('"' :: cont)) = some (l, cont) := by
  intro l
  induction l with
  | nil =>
    intro fuel cont h
    obtain ⟨f, rfl⟩ : ∃ f, fuel = f + 1 := ⟨fuel - 1, by omega⟩
    simp [escList, parseStrChars]
  | cons c cs ih =>
    intro fuel cont h
    obtain ⟨f, rfl⟩ : ∃ f, fuel = f + 1 := ⟨fuel - 1, by omega⟩
    rw [escList, List.append_assoc, parseStrChars_escChar,
      ih f cont (by simp at h; omega)]
    rfl

/-! ## C8: serializer shape lemmas and object reconstruction -/

theorem weight_pos (d : Json) : 1 ≤ weight d := by
  cases d <;> simp [weight] <;> omega

theorem weightL_nonneg_cons (x : Json) (xs : List Json) :
    weightL (x :: xs) = 1 + weight x + weightL xs := by
  simp [weightL]

theorem natDigitsAux_head : ∀ (fuel n : Nat), n < fuel →
    ∃ d t, natDigitsAux fuel n = d :: t ∧ isDigitC d = true := by
  intro fuel
  induction fuel with
  | zero => omega
  | succ f ih =>
    intro n h
    rw [natDigitsAux]
    by_cases h10 : n < 10
    · exact ⟨Nat.digitChar n, [], by rw [if_pos h10], digitChar_isDigit n h10⟩
    · have hdiv : n / 10 < n := Nat.div_lt_self (by omega) (by omega)
      obtain ⟨d, t, hdt, hd⟩ := ih (n / 10) (by omega)
      exact ⟨d, t ++ [Nat.digitChar (n % 10)],
        by rw [if_neg h10, hdt]; rfl, hd⟩

theorem serNum_head (n : Int) :
    ∃ d t, serNum n = d :: t ∧ (d = '-' ∨ isDigitC d = true) := by
  rw [serNum]
  by_cases h : n < 0
  · exact ⟨'-', natDigits n.natAbs, by rw [if_pos h], Or.inl rfl⟩
  · obtain ⟨d, t, hdt, hd⟩ := natDigitsAux_head (n.toNat + 1) n.toNat (by omega)
    exact ⟨d, t, by rw [if_neg h]; exact hdt, Or.inr hd⟩

theorem ser_head (d : Json) (lvl : Nat) :
    ∃ c t, ser lvl d = c :: t ∧ isWs c = false ∧ c ≠ ']' ∧ c ≠ '}' := by
  cases d with
  | null =>
    exact ⟨'n', ['u', 'l', 'l'], by simp [ser], by decide, by decide, by decide⟩
  | bool b =>
    cases b with
    | false =>
      exact ⟨'f', ['a', 'l', 's', 'e'], by simp [ser], by decide, by decide,
        by decide⟩
    | true =>
      exact ⟨'t', ['r', 'u', 'e'], by simp [ser], by decide, by decide,
        by decide⟩
  | num n =>
    obtain ⟨d, t, hdt, hd⟩ := serNum_head n
    refine ⟨d, t, by simp [ser]; exact hdt, ?_, ?_, ?_⟩
    · rcases hd with hd | hd
      · subst hd; decide
      · exact isDigitC_not_ws d hd
    · rcases hd with hd | hd
      · subst hd; decide
      · exact isDigitC_ne d hd ']' (by decide)
    · rcases hd with hd | hd
      · subst hd; decide
      · exact isDigitC_ne d hd '}' (by decide)
  | str s =>
    exact ⟨'"', escList s.data ++ ['"'], by simp [ser, serStr], by decide,
      by decide, by decide⟩
  | arr xs =>
    cases xs with
    | nil => exact ⟨'[', [']'], by simp [ser], by decide, by decide, by decide⟩
    | cons x xs =>
      exact ⟨'[', '\n' :: (serItems (lvl + 2) x xs ++ '\n' ::
        (spacesL lvl ++ [']'])), by simp [ser], by decide, by decide, by decide⟩
  | obj fs =>
    cases fs with
    | nil => exact ⟨'{', ['}'], by simp [ser], by decide, by decide, by decide⟩
    | cons f fs =>
      exact ⟨'{', '\n' :: (serFields (lvl + 2) f fs ++ '\n' ::
        (spacesL lvl ++ ['}'])), by simp [ser], by decide, by decide, by decide⟩

theorem skipWs_around_ser (ilvl : Nat) (x : Json) (rest : List Char) :
    skipWs ('\n' :: (spacesL ilvl ++ (ser ilvl x ++ rest))) =
      ser ilvl x ++ rest := by
  rw [skipWs_nl_spaces]
  obtain ⟨c, t, hct, hws, _, _⟩ := ser_head x ilvl
  rw [hct, List.cons_append, skipWs_cons_not c (t ++ rest) hws]

/-! fields of a parsed object are reassembled by repeated dict
assignment; with distinct keys this is the identity -/

theorem objSet_append_fresh (d : Obj) (k : String) (v : Json)
    (h : objGet d k = none) : objSet d k v = d ++ [(k, v)] := by
  induction d with
  | nil => rfl
  | cons p rest ih =>
    obtain ⟨k2, w⟩ := p
    rw [objGet] at h
    by_cases h2 : k2 = k
    · rw [if_pos h2] at h; cases h
    · rw [if_neg h2] at h
      simp only [objSet, if_neg h2, List.cons_append, List.cons.injEq,
        true_and]
      exact ih h

theorem objGet_append (a b : Obj) (q : String) :
    objGet (a ++ b) q =
      match objGet a q with
      | some v => some v
      | none => objGet b q := by
  induction a with
  | nil => rfl
  | cons p rest ih =>
    obtain ⟨k, w⟩ := p
    by_cases h : k = q
    · simp [objGet, h]
    · simp [objGet, h, ih]

theorem noKey_spec (k : String) : ∀ (fs : Obj), noKey k fs = true →
    ∀ p ∈ fs, p.1 ≠ k := by
  intro fs
  induction fs with
  | nil => intro _ p hp; cases hp
  | cons g gs ih =>
    intro h p hp
    rw [noKey, Bool.and_eq_true] at h
    rcases List.mem_cons.mp hp with hp | hp
    · subst hp
      simpa [bne_iff_ne] using h.1
    · exact ih h.2 p hp

theorem foldl_objSet_fresh : ∀ (ps : Obj) (acc : Obj),
    (∀ p ∈ ps, objGet acc p.1 = none) → nodupKeys ps = true →
    ps.foldl (fun a kv => objSet a kv.1 kv.2) acc = acc ++ ps := by
  intro ps
  induction ps with
  | nil => intro acc _ _; simp
  | cons p rest ih =>
    intro acc hfresh hnodup
    obtain ⟨k, v⟩ := p
    rw [nodupKeys, Bool.and_eq_true] at hnodup
    rw [List.foldl_cons]
    have hk : objGet acc k = none := hfresh (k, v) (List.mem_cons_self _ _)
    rw [objSet_append_fresh acc k v hk]
    have hfresh2 : ∀ p ∈ rest, objGet (acc ++ [(k, v)]) p.1 = none := by
      intro p hp
      have hne : p.1 ≠ k := noKey_spec k rest hnodup.1 p hp
      rw [objGet_append, hfresh p (List.mem_cons_of_mem _ hp)]
      show objGet [(k, v)] p.1 = none
      rw [objGet, if_neg fun h => hne h.symm]
      rfl
    rw [ih (acc ++ [(k, v)]) hfresh2 hnodup.2]
    simp

theorem dictFromPairs_nodup (ps : Obj) (h : nodupKeys ps = true) :
    dictFromPairs ps = ps := by
  rw [dictFromPairs, foldl_objSet_fresh ps [] (fun p _ => rfl) h]
  rfl

/-! ## C8: number-parse lemmas -/

theorem parseVal_digits (f : Nat) (d : Char) (t cont : List Char)
    (hall : ∀ c ∈ d :: t, isDigitC c = true) (hrest : restOk cont) :
    parseVal (f + 1) ((d :: t) ++ cont) =
      some (.num (Int.ofNat (digitsVal (d :: t))), cont) := by
  have hd := hall d (List.mem_cons_self d t)
  have hws := isDigitC_not_ws d hd
  have g1 : (d = 'n') = False := eq_false (isDigitC_ne d hd 'n' (by decide))
  have g2 : (d = 't') = False := eq_false (isDigitC_ne d hd 't' (by decide))
  have g3 : (d = 'f') = False := eq_false (isDigitC_ne d hd 'f' (by decide))
  have g4 : (d = '"') = False := eq_false (isDigitC_ne d hd '"' (by decide))
  have g5 : (d = '[') = False := eq_false (isDigitC_ne d hd '[' (by decide))
  have g6 : (d = '{') = False := eq_false (isDigitC_ne d hd '{' (by decide))
  have g7 : (d = '-') = False := eq_false (isDigitC_ne d hd '-' (by decide))
  have g8 : isDigitC d = true := hd
  obtain ⟨htake, hdrop⟩ := takeWhile_append_all (d :: t) cont hall hrest
  have htake2 : (d :: (t ++ cont)).takeWhile isDigitC = d :: t := by
    simpa using htake
  have hdrop2 : (d :: (t ++ cont)).dropWhile isDigitC = cont := by
    simpa using hdrop
  simp only [List.cons_append, parseVal, skipWs_cons_not d (t ++ cont) hws,
    g1, g2, g3, g4, g5, g6, g7, g8, ite_false, ite_true, htake2, hdrop2]

theorem parseVal_neg_digits (f : Nat) (d : Char) (t cont : List Char)
    (hall : ∀ c ∈ d :: t, isDigitC c = true) (hrest : restOk cont) :
    parseVal (f + 1) ('-' :: ((d :: t) ++ cont)) =
      some (.num (-(Int.ofNat (digitsVal (d :: t)))), cont) := by
  have hd := hall d (List.mem_cons_self d t)
  obtain ⟨htake, hdrop⟩ := takeWhile_append_all (d :: t) cont hall hrest
  have htake2 : (d :: (t ++ cont)).takeWhile isDigitC = d :: t := by
    simpa using htake
  have hdrop2 : (d :: (t ++ cont)).dropWhile isDigitC = cont := by
    simpa using hdrop
  have q1 : ('-' = 'n') = False := eq_false (by decide)
  have q2 : ('-' = 't') = False := eq_false (by decide)
  have q3 : ('-' = 'f') = False := eq_false (by decide)
  have q4 : ('-' = '"') = False := eq_false (by decide)
  have q5 : ('-' = '[') = False := eq_false (by decide)
  have q6 : ('-' = '{') = False := eq_false (by decide)
  simp only [List.cons_append, parseVal,
    skipWs_cons_not '-' (d :: (t ++ cont)) (by decide),
    q1, q2, q3, q4, q5, q6, ite_false, ite_true, hd, htake2, hdrop2]

/-! ## C8: parser step lemmas (definitional unfoldings) -/

theorem parseVal_bracket (f : Nat) (rest : List Char) :
    parseVal (f + 1) ('[' :: rest) =
      if headIs ']' (skipWs rest) then some (.arr [], (skipWs rest).tail)
      else (parseElems f rest).map fun p => (.arr p.1, p.2) := rfl

theorem parseVal_brace (f : Nat) (rest : List Char) :
    parseVal (f + 1) ('{' :: rest) =
      if headIs '}' (skipWs rest) then some (.obj [], (skipWs rest).tail)
      else (parseFields f rest).map fun p => (.obj (dictFromPairs p.1), p.2) :=
  rfl

theorem parseVal_quote (f : Nat) (rest : List Char) :
    parseVal (f + 1) ('"' :: rest) =
      (parseStrChars f rest).map fun p => (.str (String.mk p.1), p.2) := rfl

theorem parseElems_step (f : Nat) (cs : List Char) :
    parseElems (f + 1) cs =
      (parseVal f cs).bind fun q =>
        if headIs ',' (skipWs q.2) then
          (parseElems f (skipWs q.2).tail).map fun p => (q.1 :: p.1, p.2)
        else if headIs ']' (skipWs q.2) then some ([q.1], (skipWs q.2).tail)
        else none := rfl

theorem parseFields_step (f : Nat) (cs : List Char) :
    parseFields (f + 1) cs =
      if headIs '"' (skipWs cs) then
        (parseStrChars f (skipWs cs).tail).bind fun q =>
          if headIs ':' (skipWs q.2) then
            (parseVal f (skipWs q.2).tail).bind fun q2 =>
              if headIs ',' (skipWs q2.2) then
                (parseFields f (skipWs q2.2).tail).map fun p =>
                  ((String.mk q.1, q2.1) :: p.1, p.2)
              else if headIs '}' (skipWs q2.2) then
                some ([(String.mk q.1, q2.1)], (skipWs q2.2).tail)
              else none
          else none
      else none := rfl

theorem parseVal_nl_spaces (f n : Nat) (t : List Char) :
    parseVal f ('\n' :: (spacesL n ++ t)) = parseVal f t := by
  have h : ('\n' :: (spacesL n ++ t)) = ('\n' :: spacesL n) ++ t := rfl
  rw [h]
  refine parseVal_ws_pad f _ t fun c hc => ?_
  rcases List.mem_cons.mp hc with hc | hc
  · rw [hc]; rfl
  · rw [spacesL] at hc; rw [List.eq_of_mem_replicate hc]; rfl

theorem serItems_decomp (ilvl : Nat) (x : Json) (xs : List Json) :
    ∃ b, serItems ilvl x xs = spacesL ilvl ++ (ser ilvl x ++ b) := by
  cases xs with
  | nil => exact ⟨[], by simp [serItems]⟩
  | cons y ys => exact ⟨',' :: '\n' :: serItems ilvl y ys, by simp [serItems]⟩

theorem serFields_decomp (ilvl : Nat) (k : String) (v : Json)
    (fs : List (String × Json)) :
    ∃ b, serFields ilvl (k, v) fs =
      spacesL ilvl ++ ('"' :: (escList k.data ++ ('"' :: (':' :: ' ' ::
        (ser ilvl v ++ b))))) := by
  cases fs with
  | nil => exact ⟨[], by simp [serFields, serStr]⟩
  | cons g gs =>
    exact ⟨',' :: '\n' :: serFields ilvl g gs, by simp [serFields, serStr]⟩

/-! ## C8: the round-trip induction -/

theorem roundtrip_main : ∀ fuel : Nat,
    (∀ (d : Json) (lvl : Nat) (cont : List Char), weight d ≤ fuel →
      wfB d = true → restOk cont →
      parseVal fuel (ser lvl d ++ cont) = some (d, cont)) ∧
    (∀ (x : Json) (xs : List Json) (ilvl lvl : Nat) (cont : List Char),
      1 + weight x + weightL xs ≤ fuel → wfB x = true → wfL xs = true →
      parseElems fuel ('\n' :: (serItems ilvl x xs ++
        '\n' :: (spacesL lvl ++ (']' :: cont)))) = some (x :: xs, cont)) ∧
    (∀ (k : String) (v : Json) (fs : List (String × Json)) (ilvl lvl : Nat)
      (cont : List Char),
      1 + weightF ((k, v) :: fs) ≤ fuel → wfB v = true → wfF fs = true →
      parseFields fuel ('\n' :: (serFields ilvl (k, v) fs ++
        '\n' :: (spacesL lvl ++ ('}' :: cont)))) = some ((k, v) :: fs, cont)) := by
  intro fuel
  induction fuel with
  | zero =>
    refine ⟨?_, ?_, ?_⟩
    · intro d lvl cont hw _ _
      have := weight_pos d
      omega
    · intro x xs ilvl lvl cont hw _ _
      have := weight_pos x
      omega
    · intro k v fs ilvl lvl cont hw _ _
      have := weight_pos v
      omega
  | succ f ih =>
    obtain ⟨ihV, ihE, ihF⟩ := ih
    refine ⟨?_, ?_, ?_⟩
    · -- values
      intro d lvl cont hw hwf hrest
      cases d with
      | null =>
        rw [show ser lvl .null = ['n', 'u', 'l', 'l'] from by simp [ser]]
        rfl
      | bool b =>
        cases b with
        | false =>
          rw [show ser lvl (.bool false) = ['f', 'a', 'l', 's', 'e'] from
            by simp [ser]]
          rfl
        | true =>
          rw [show ser lvl (.bool true) = ['t', 'r', 'u', 'e'] from
            by simp [ser]]
          rfl
      | num n =>
        rw [show ser lvl (.num n) = serNum n from by simp [ser], serNum]
        by_cases hneg : n < 0
        · rw [if_pos hneg, natDigits]
          obtain ⟨d0, t0, hdt, _⟩ :=
            natDigitsAux_head (n.natAbs + 1) n.natAbs (by omega)
          rw [hdt, List.cons_append]
          rw [parseVal_neg_digits f d0 t0 cont
            (by rw [← hdt]; exact natDigitsAux_digits _ _) hrest]
          have hval : digitsVal (d0 :: t0) = n.natAbs := by
            rw [← hdt]
            exact digitsVal_natDigitsAux _ _ (by omega)
          have hn : -(Int.ofNat n.natAbs) = n := by
            show -((n.natAbs : Nat) : Int) = n
            omega
          rw [hval, hn]
        · rw [if_neg hneg, natDigits]
          obtain ⟨d0, t0, hdt, _⟩ :=
            natDigitsAux_head (n.toNat + 1) n.toNat (by omega)
          rw [hdt]
          rw [parseVal_digits f d0 t0 cont
            (by rw [← hdt]; exact natDigitsAux_digits _ _) hrest]
          have hval : digitsVal (d0 :: t0) = n.toNat := by
            rw [← hdt]
            exact digitsVal_natDigitsAux _ _ (by omega)
          have hn : Int.ofNat n.toNat = n := by
            show ((n.toNat : Nat) : Int) = n
            omega
          rw [hval, hn]
      | str s =>
        rw [show ser lvl (.str s) = '"' :: (escList s.data ++ ['"']) from
          by simp [ser, serStr]]
        have hshape : ('"' :: (escList s.data ++ ['"'])) ++ cont =
            '"' :: (escList s.data ++ ('"' :: cont)) := by simp
        rw [hshape, parseVal_quote,
          parseStrChars_escList s.data f cont ?hfuel]
        · rfl
        case hfuel =>
          have hw2 : weight (.str s) = s.length + 2 := by simp [weight]
          have : s.length = s.data.length := rfl
          omega
      | arr xs =>
        cases xs with
        | nil =>
          rw [show ser lvl (.arr []) = ['[', ']'] from by simp [ser]]
          rfl
        | cons x xs =>
          rw [show ser lvl (.arr (x :: xs)) = '[' :: '\n' ::
            (serItems (lvl + 2) x xs ++ '\n' :: (spacesL lvl ++ [']'])) from
            by simp [ser]]
          have hshape : ('[' :: '\n' :: (serItems (lvl + 2) x xs ++ '\n' ::
              (spacesL lvl ++ [']']))) ++ cont =
              '[' :: ('\n' :: (serItems (lvl + 2) x xs ++ '\n' ::
                (spacesL lvl ++ (']' :: cont)))) := by simp
          rw [hshape, parseVal_bracket]
          have hhead : headIs ']' (skipWs ('\n' :: (serItems (lvl + 2) x xs ++
              '\n' :: (spacesL lvl ++ (']' :: cont))))) = false := by
            obtain ⟨b, hb⟩ := serItems_decomp (lvl + 2) x xs
            have hshape2 : '\n' :: (serItems (lvl + 2) x xs ++ '\n' ::
                (spacesL lvl ++ (']' :: cont))) =
                '\n' :: (spacesL (lvl + 2) ++ (ser (lvl + 2) x ++
                  (b ++ '\n' :: (spacesL lvl ++ (']' :: cont))))) := by
              rw [hb]; simp
            rw [hshape2, skipWs_around_ser]
            obtain ⟨c, t, hct, _, hc1, _⟩ := ser_head x (lvl + 2)
            rw [hct, List.cons_append, headIs]
            simpa using hc1
          rw [if_neg (by simp [hhead])]
          have hwf2 : wfB x = true ∧ wfL xs = true := by
            have : wfB (.arr (x :: xs)) = (wfB x && wfL xs) := by
              simp [wfB, wfL]
            rw [this] at hwf
            simpa using hwf
          rw [ihE x xs (lvl + 2) lvl cont ?efuel hwf2.1 hwf2.2]
          · rfl
          case efuel =>
            have : weight (.arr (x :: xs)) = 2 + weightL (x :: xs) := by
              simp [weight]
            have h2 := weightL_nonneg_cons x xs
            omega
      | obj fs =>
        cases fs with
        | nil =>
          rw [show ser lvl (.obj []) = ['{', '}'] from by simp [ser]]
          rfl
        | cons g gs =>
          obtain ⟨k, v⟩ := g
          rw [show ser lvl (.obj ((k, v) :: gs)) = '{' :: '\n' ::
            (serFields (lvl + 2) (k, v) gs ++ '\n' ::
              (spacesL lvl ++ ['}'])) from by simp [ser]]
          have hshape : ('{' :: '\n' :: (serFields (lvl + 2) (k, v) gs ++
              '\n' :: (spacesL lvl ++ ['}']))) ++ cont =
              '{' :: ('\n' :: (serFields (lvl + 2) (k, v) gs ++ '\n' ::
                (spacesL lvl ++ ('}' :: cont)))) := by simp
          rw [hshape, parseVal_brace]
          have hhead : headIs '}' (skipWs ('\n' ::
              (serFields (lvl + 2) (k, v) gs ++ '\n' ::
                (spacesL lvl ++ ('}' :: cont))))) = false := by
            obtain ⟨b, hb⟩ := serFields_decomp (lvl + 2) k v gs
            have hshape2 : '\n' :: (serFields (lvl + 2) (k, v) gs ++ '\n' ::
                (spacesL lvl ++ ('}' :: cont))) =
                ('\n' :: spacesL (lvl + 2)) ++ ('"' :: ((escList k.data ++
                  ('"' :: (':' :: ' ' :: (ser (lvl + 2) v ++ b)))) ++ '\n' ::
                    (spacesL lvl ++ ('}' :: cont)))) := by
              rw [hb]; simp
            rw [hshape2, skipWs_ws_append, skipWs_cons_not _ _ (by decide)]
            · rfl
            · intro c hc
              rcases List.mem_cons.mp hc with hc | hc
              · rw [hc]; rfl
              · rw [spacesL] at hc; rw [List.eq_of_mem_replicate hc]; rfl
          rw [if_neg (by simp [hhead])]
          have hwf2 : nodupKeys ((k, v) :: gs) = true ∧ wfB v = true ∧
              wfF gs = true := by
            have : wfB (.obj ((k, v) :: gs)) =
                (nodupKeys ((k, v) :: gs) && (wfB v && wfF gs)) := by
              simp [wfB, wfF]
            rw [this] at hwf
            simpa using hwf
          rw [ihF k v gs (lvl + 2) lvl cont ?ffuel hwf2.2.1 hwf2.2.2]
          have : dictFromPairs ((k, v) :: gs) = (k, v) :: gs :=
            dictFromPairs_nodup _ hwf2.1
          simp [this]
          case ffuel =>
            have : weight (.obj ((k, v) :: gs)) =
                2 + weightF ((k, v) :: gs) := by simp [weight]
            omega
    · -- array elements
      intro x xs ilvl lvl cont hw hwx hwxs
      cases xs with
      | nil =>
        have hshape : '\n' :: (serItems ilvl x [] ++ '\n' ::
            (spacesL lvl ++ (']' :: cont))) =
            '\n' :: (spacesL ilvl ++ (ser ilvl x ++ ('\n' ::
              (spacesL lvl ++ (']' :: cont))))) := by
          simp [serItems]
        rw [parseElems_step, hshape, parseVal_nl_spaces]
        have hwL : weightL ([] : List Json) = 0 := by simp [weightL]
        rw [ihV x ilvl _ (by omega) hwx (fun c hc => by
          simp at hc; subst hc; rfl)]
        rw [Option.some_bind]
        rw [show skipWs ('\n' :: (spacesL lvl ++ (']' :: cont))) =
          ']' :: cont from by
            rw [skipWs_nl_spaces, skipWs_cons_not _ _ (by decide)]]
        rfl
      | cons y ys =>
        have hshape : '\n' :: (serItems ilvl x (y :: ys) ++ '\n' ::
            (spacesL lvl ++ (']' :: cont))) =
            '\n' :: (spacesL ilvl ++ (ser ilvl x ++ (',' :: ('\n' ::
              (serItems ilvl y ys ++ '\n' ::
                (spacesL lvl ++ (']' :: cont))))))) := by
          simp [serItems]
        rw [parseElems_step, hshape, parseVal_nl_spaces]
        have hwL := weightL_nonneg_cons y ys
        have hwLx := weightL_nonneg_cons x (y :: ys)
        rw [ihV x ilvl _ (by omega) hwx (fun c hc => by
          simp at hc; subst hc; rfl)]
        rw [Option.some_bind]
        rw [show skipWs (',' :: ('\n' :: (serItems ilvl y ys ++ '\n' ::
          (spacesL lvl ++ (']' :: cont))))) = ',' :: ('\n' ::
            (serItems ilvl y ys ++ '\n' :: (spacesL lvl ++ (']' :: cont))))
          from skipWs_cons_not _ _ (by decide)]
        have hwf2 : wfB y = true ∧ wfL ys = true := by
          have : wfL (y :: ys) = (wfB y && wfL ys) := by simp [wfL]
          rw [this] at hwxs
          simpa using hwxs
        have hstep : headIs ',' (',' :: ('\n' :: (serItems ilvl y ys ++
            '\n' :: (spacesL lvl ++ (']' :: cont))))) = true := rfl
        rw [if_pos (by simp [hstep])]
        rw [show (',' :: ('\n' :: (serItems ilvl y ys ++ '\n' ::
          (spacesL lvl ++ (']' :: cont))))).tail = '\n' ::
            (serItems ilvl y ys ++ '\n' :: (spacesL lvl ++ (']' :: cont)))
          from rfl]
        rw [ihE y ys ilvl lvl cont (by omega) hwf2.1 hwf2.2]
        rfl
    · -- object fields
      intro k v fs ilvl lvl cont hw hwv hwfs
      have hklen : k.length = k.data.length := rfl
      have hwF : weightF ((k, v) :: fs) =
          k.length + 3 + weight v + weightF fs := by simp [weightF]
      obtain ⟨b, hb⟩ := serFields_decomp ilvl k v fs
      have hbshape : ∀ tail2 : List Char,
          '\n' :: (serFields ilvl (k, v) fs ++ tail2) =
          ('\n' :: spacesL ilvl) ++ ('"' :: (escList k.data ++ ('"' ::
            (':' :: ' ' :: ((ser ilvl v ++ b) ++ tail2))))) := by
        intro tail2
        rw [hb]
        simp
      rw [parseFields_step, hbshape]
      rw [skipWs_ws_append _ _ (fun c hc => by
        rcases List.mem_cons.mp hc with hc | hc
        · rw [hc]; rfl
        · rw [spacesL] at hc; rw [List.eq_of_mem_replicate hc]; rfl)]
      rw [skipWs_cons_not _ _ (by decide)]
      rw [if_pos (by rfl)]
      rw [show ('"' :: (escList k.data ++ ('"' :: (':' :: ' ' ::
        ((ser ilvl v ++ b) ++ '\n' :: (spacesL lvl ++ ('}' :: cont))))))).tail
        = escList k.data ++ ('"' :: (':' :: ' ' :: ((ser ilvl v ++ b) ++
          '\n' :: (spacesL lvl ++ ('}' :: cont))))) from rfl]
      rw [parseStrChars_escList k.data f _ (by omega)]
      rw [Option.some_bind]
      rw [show skipWs (':' :: ' ' :: ((ser ilvl v ++ b) ++ '\n' ::
        (spacesL lvl ++ ('}' :: cont)))) = ':' :: ' ' :: ((ser ilvl v ++ b) ++
          '\n' :: (spacesL lvl ++ ('}' :: cont)))
        from skipWs_cons_not _ _ (by decide)]
      rw [if_pos (by rfl)]
      rw [show (':' :: ' ' :: ((ser ilvl v ++ b) ++ '\n' ::
        (spacesL lvl ++ ('}' :: cont)))).tail = ' ' :: ((ser ilvl v ++ b) ++
          '\n' :: (spacesL lvl ++ ('}' :: cont))) from rfl]
      rw [show (' ' :: ((ser ilvl v ++ b) ++ '\n' ::
        (spacesL lvl ++ ('}' :: cont)))) = [' '] ++ ((ser ilvl v ++ b) ++
          '\n' :: (spacesL lvl ++ ('}' :: cont))) from rfl]
      rw [parseVal_ws_pad f [' '] _ (by intro c hc; simp at hc; subst hc; rfl)]
      cases fs with
      | nil =>
        have hbnil : b = [] := by
          have hsf : serFields ilvl (k, v) [] =
              spacesL ilvl ++ (serStr k ++ ':' :: ' ' :: ser ilvl v) := by
            simp [serFields]
          rw [hsf] at hb
          simp [serStr] at hb
          exact hb
        subst hbnil
        rw [List.append_nil]
        rw [ihV v ilvl _ (by omega) hwv (fun c hc => by
          simp at hc; subst hc; rfl)]
        rw [Option.some_bind]
        rw [show skipWs ('\n' :: (spacesL lvl ++ ('}' :: cont))) =
          '}' :: cont from by
            rw [skipWs_nl_spaces, skipWs_cons_not _ _ (by decide)]]
        rfl
      | cons g gs =>
        obtain ⟨k2, v2⟩ := g
        have hbval : b = ',' :: '\n' :: serFields ilvl (k2, v2) gs := by
          have : serFields ilvl (k, v) ((k2, v2) :: gs) =
              spacesL ilvl ++ (serStr k ++ ':' :: ' ' :: (ser ilvl v ++
                ',' :: '\n' :: serFields ilvl (k2, v2) gs)) := by
            simp [serFields]
          rw [this] at hb
          simp [serStr] at hb
          exact hb.symm
        subst hbval
        have hshape3 : (ser ilvl v ++ ',' :: '\n' ::
            serFields ilvl (k2, v2) gs) ++ '\n' ::
              (spacesL lvl ++ ('}' :: cont)) =
            ser ilvl v ++ (',' :: ('\n' :: (serFields ilvl (k2, v2) gs ++
              '\n' :: (spacesL lvl ++ ('}' :: cont))))) := by simp
        rw [hshape3]
        have hwF2 : weightF ((k2, v2) :: gs) =
            k2.length + 3 + weight v2 + weightF gs := by simp [weightF]
        rw [ihV v ilvl _ (by omega) hwv (fun c hc => by
          simp at hc; subst hc; rfl)]
        rw [Option.some_bind]
        rw [show skipWs (',' :: ('\n' :: (serFields ilvl (k2, v2) gs ++
          '\n' :: (spacesL lvl ++ ('}' :: cont))))) = ',' :: ('\n' ::
            (serFields ilvl (k2, v2) gs ++ '\n' ::
              (spacesL lvl ++ ('}' :: cont))))
          from skipWs_cons_not _ _ (by decide)]
        rw [if_pos (by rfl)]
        have hwf3 : wfB v2 = true ∧ wfF gs = true := by
          have : wfF ((k2, v2) :: gs) = (wfB v2 && wfF gs) := by
            simp [wfF]
          rw [this] at hwfs
          simpa using hwfs
        rw [show (',' :: ('\n' :: (serFields ilvl (k2, v2) gs ++ '\n' ::
          (spacesL lvl ++ ('}' :: cont))))).tail = '\n' ::
            (serFields ilvl (k2, v2) gs ++ '\n' ::
              (spacesL lvl ++ ('}' :: cont))) from rfl]
        rw [ihF k2 v2 gs ilvl lvl cont (by omega) hwf3.1 hwf3.2]
        rfl

/-! ## C8: enough fuel — `weight` bounded by serialized length -/

theorem escChar_len_pos (c : Char) : 1 ≤ (escChar c).length := by
  unfold escChar
  repeat' split
  all_goals simp [hex4]

theorem escList_len_ge : ∀ l : List Char, l.length ≤ (escList l).length := by
  intro l
  induction l with
  | nil => simp [escList]
  | cons c cs ih =>
    have := escChar_len_pos c
    simp only [escList, List.length_append, List.length_cons]
    omega

theorem serNum_len_pos (n : Int) : 1 ≤ (serNum n).length := by
  rw [serNum]
  split_ifs
  · simp
  · have h := natDigits_ne_nil n.toNat
    have := List.length_pos.mpr h
    omega

theorem serStr_len_ge (s : String) :
    s.length + 2 ≤ (serStr s).length := by
  have h := escList_len_ge s.data
  have h2 : s.length = s.data.length := rfl
  simp only [serStr, List.length_cons, List.length_append,
    List.length_singleton]
  omega

theorem weight_le_twice_ser_len : ∀ (N : Nat) (d : Json), weight d ≤ N →
    ∀ lvl, weight d ≤ 2 * (ser lvl d).length := by
  intro N
  induction N with
  | zero => intro d h; have := weight_pos d; omega
  | succ m ih =>
    intro d hN lvl
    cases d with
    | null => simp [ser, weight]
    | bool b => cases b <;> simp [ser, weight]
    | num n =>
      have := serNum_len_pos n
      have hs : ser lvl (.num n) = serNum n := by simp [ser]
      have hw : weight (.num n) = 1 := by simp [weight]
      rw [hs, hw]
      omega
    | str s =>
      have h1 := serStr_len_ge s
      have hs : ser lvl (.str s) = serStr s := by simp [ser]
      have hw : weight (.str s) = s.length + 2 := by simp [weight]
      rw [hs, hw]
      omega
    | arr xs =>
      cases xs with
      | nil => simp [ser, weight, weightL]
      | cons x xs =>
        have hwa : weight (.arr (x :: xs)) = 2 + weightL (x :: xs) := by
          simp [weight]
        have aux : ∀ (xs2 : List Json) (x2 : Json) (ilvl : Nat), 1 ≤ ilvl →
            weightL (x2 :: xs2) ≤ m →
            1 + weight x2 + weightL xs2 ≤
              2 * (serItems ilvl x2 xs2).length := by
          intro xs2
          induction xs2 with
          | nil =>
            intro x2 ilvl hilvl hle
            have h1 := weightL_nonneg_cons x2 []
            have h0 : weightL ([] : List Json) = 0 := by simp [weightL]
            have hx := ih x2 (by omega) ilvl
            simp only [serItems, List.length_append, spacesL,
              List.length_replicate]
            omega
          | cons y ys ihxs =>
            intro x2 ilvl hilvl hle
            have h1 := weightL_nonneg_cons x2 (y :: ys)
            have h2 := weightL_nonneg_cons y ys
            have hx := ih x2 (by omega) ilvl
            have hrec := ihxs y ilvl hilvl (by omega)
            simp only [serItems, List.length_append, spacesL,
              List.length_replicate, List.length_cons] at hrec ⊢
            omega
        have h2 := aux xs x (lvl + 2) (by omega) (by omega)
        have hlen : (ser lvl (.arr (x :: xs))).length =
            2 + ((serItems (lvl + 2) x xs).length + (1 + (lvl + 1))) := by
          simp [ser, spacesL]
          omega
        have h3 := weightL_nonneg_cons x xs
        rw [hwa, hlen]
        omega
    | obj fs =>
      cases fs with
      | nil => simp [ser, weight, weightF]
      | cons g gs =>
        obtain ⟨k, v⟩ := g
        have hwo : weight (.obj ((k, v) :: gs)) =
            2 + weightF ((k, v) :: gs) := by simp [weight]
        have auxF : ∀ (gs2 : List (String × Json)) (k2 : String) (v2 : Json)
            (ilvl : Nat), weightF ((k2, v2) :: gs2) ≤ m →
            weightF ((k2, v2) :: gs2) ≤
              2 * (serFields ilvl (k2, v2) gs2).length := by
          intro gs2
          induction gs2 with
          | nil =>
            intro k2 v2 ilvl hle
            have hwf : weightF ((k2, v2) :: []) =
                k2.length + 3 + weight v2 + weightF [] := by simp [weightF]
            have h0 : weightF ([] : List (String × Json)) = 0 := by
              simp [weightF]
            have hv := ih v2 (by omega) ilvl
            have hstr := serStr_len_ge k2
            simp only [serFields, List.length_append, spacesL,
              List.length_replicate, List.length_cons]
            omega
          | cons g2 gs3 ihgs =>
            intro k2 v2 ilvl hle
            obtain ⟨k3, v3⟩ := g2
            have hwf : weightF ((k2, v2) :: (k3, v3) :: gs3) =
                k2.length + 3 + weight v2 + weightF ((k3, v3) :: gs3) := by
              simp [weightF]
            have hwf2 : weightF ((k3, v3) :: gs3) =
                k3.length + 3 + weight v3 + weightF gs3 := by simp [weightF]
            have hv := ih v2 (by omega) ilvl
            have hrec := ihgs k3 v3 ilvl (by omega)
            have hstr := serStr_len_ge k2
            simp only [serFields, List.length_append, spacesL,
              List.length_replicate, List.length_cons] at hrec ⊢
            omega
        have hwf3 : weightF ((k, v) :: gs) =
            k.length + 3 + weight v + weightF gs := by simp [weightF]
        have h2 := auxF gs k v (lvl + 2) (by omega)
        have hlen : (ser lvl (.obj ((k, v) :: gs))).length =
            2 + ((serFields (lvl + 2) (k, v) gs).length + (1 + (lvl + 1))) := by
          simp [ser, spacesL]
          omega
        rw [hwo, hlen]
        omega

/-! ## C8: the claim -/

/-- C8: for every state document (distinct keys throughout, as every
Python dict has), `load_state` of what `save_state` wrote returns the
same document, and re-saving the loaded document reproduces the on-disk
content byte for byte. -/
theorem c8_state_roundtrip (d : Json) (h : wfB d = true) :
    load_state (some (save_state d)) = some d ∧
    (load_state (some (save_state d))).map save_state =
      some (save_state d) := by
  have hw := weight_le_twice_ser_len (weight d) d le_rfl 0
  have hlen : (dumps d).length = (ser 0 d).length := rfl
  have hmain := (roundtrip_main (2 * (dumps d).length + 2)).1 d 0 []
    (by omega) h (fun c hc => by cases hc)
  rw [List.append_nil] at hmain
  have hload : load_state (some (save_state d)) = some d := by
    show loads (dumps d) = some d
    rw [loads]
    have hdata : (dumps d).data = ser 0 d := rfl
    rw [hdata, hmain]
    rfl
  exact ⟨hload, by rw [hload]; rfl⟩

theorem c8_witness :
    load_state (some (save_state
      (Json.obj [("a", .str "b"), ("n", .num 5)]))) =
      some (Json.obj [("a", .str "b"), ("n", .num 5)]) ∧
    (load_state (some (save_state
      (Json.obj [("a", .str "b"), ("n", .num 5)])))).map save_state =
      some (save_state (Json.obj [("a", .str "b"), ("n", .num 5)])) :=
  c8_state_roundtrip (Json.obj [("a", .str "b"), ("n", .num 5)])
    (by simp [wfB, wfF, wfL, nodupKeys, noKey])

end Clawd
